import Mathlib

/-!
Verification of the mcp_fitness_stack adapters.

The development shallowly embeds the Python sources:
  - src/hevy_mcp/server.py — the Hevy adapter: credential loading
    (get_client), the HTTP verb wrappers (api_get, api_post, api_put,
    api_delete), the pass-through tools (get_workout), and the bounded
    paginated aggregation routine (analyze_recent_workouts).
  - src/stravamcpserver/server.py and src/mymcpserver/server.py — the
    Strava and Garmin adapters' credential handling.

Machine-level conventions: timestamps are modelled as Int instants (the
composite of datetime.fromisoformat and the aware-datetime comparison is
abstracted as a function String to Option Int: a record whose timestamp
cannot be parsed or compared lands in none, which the code's except
branch skips); floats are modelled as Rat; the remote server is a
function from (page, pageSize) request parameters to the list of workout
records of that page.
-/

/-- A set entry of a workout exercise: weight_kg (float or absent) and
reps (integer or absent), as read with dict.get in the source. -/
structure SetEntry where
  weight_kg : Option Rat
  reps : Option Int
deriving DecidableEq

/-- An exercise entry of a workout: its title and its ordered sets. -/
structure ExerciseEntry where
  title : Option String
  sets : List SetEntry
deriving DecidableEq

/-- A workout record as consumed by analyze_recent_workouts: title,
start_time and exercises are all read with dict.get and may be absent. -/
structure Workout where
  title : Option String
  start_time : Option String
  exercises : List ExerciseEntry
deriving DecidableEq

/-- Python str.replace for the one-character pattern "Z" with replacement
"+00:00": every occurrence of Z is replaced, left to right (with a
one-character pattern, occurrences cannot overlap). -/
def replaceZchars : List Char → List Char
  | [] => []
  | c :: cs =>
    if c = 'Z' then '+' :: '0' :: '0' :: ':' :: '0' :: '0' :: replaceZchars cs
    else c :: replaceZchars cs

/-- The string start.replace("Z", "+00:00") of line 450. -/
def replaceZ (s : String) : String := ⟨replaceZchars s.data⟩

/-- Lines 447-450 of src/hevy_mcp/server.py: start = w.get("start_time", "");
the falsy test on start, then datetime.fromisoformat(start.replace("Z", "+00:00")).
The parse-and-compare pipeline is the abstract fromiso argument; an empty or
missing start_time never reaches it. -/
def parsedStart (fromiso : String → Option Int) (w : Workout) : Option Int :=
  let start := w.start_time.getD ""
  if start = "" then none
  else fromiso (replaceZ start)

/-- True exactly when the record is appended to all_workouts: its parsed
start_time exists and is at least the cutoff (line 451-452). -/
def keepsRecord (fromiso : String → Option Int) (cutoff : Int) (w : Workout) : Bool :=
  match parsedStart fromiso w with
  | some t => decide (cutoff ≤ t)
  | none => false

/-- True exactly when the record triggers the inner break (line 453-454):
its parsed start_time exists and is strictly older than the cutoff. -/
def stopsRecord (fromiso : String → Option Int) (cutoff : Int) (w : Workout) : Bool :=
  match parsedStart fromiso w with
  | some t => decide (t < cutoff)
  | none => false

/-- The inner record loop of analyze_recent_workouts (lines 446-456) on one
page: returns the records kept from the page and whether the inner break
fired (a record strictly older than the cutoff was met, ending the scan). -/
def scanPage (fromiso : String → Option Int) (cutoff : Int) :
    List Workout → List Workout × Bool
  | [] => ([], false)
  | w :: ws =>
    match parsedStart fromiso w with
    | none => scanPage fromiso cutoff ws
    | some t =>
      if cutoff ≤ t then
        let r := scanPage fromiso cutoff ws
        (w :: r.1, r.2)
      else ([], true)

/-- The page loop of analyze_recent_workouts (lines 440-459) over a list of
page numbers: each iteration issues api_get("/workouts", page, pageSize=10);
an empty page breaks, and the for-else construct turns an inner break into
the outer break. Returns the accumulated all_workouts and the log of
(page, pageSize) requests actually issued. -/
def scanPagesAux (pages : Nat → Nat → List Workout) (fromiso : String → Option Int)
    (cutoff : Int) : List Nat → List Workout × List (Nat × Nat)
  | [] => ([], [])
  | p :: ps =>
    let ws := pages p 10
    if ws = [] then ([], [(p, 10)])
    else
      let r := scanPage fromiso cutoff ws
      if r.2 then (r.1, [(p, 10)])
      else
        let rest := scanPagesAux pages fromiso cutoff ps
        (r.1 ++ rest.1, (p, 10) :: rest.2)

/-- Lines 440-459: for page in range(1, 6), i.e. the page numbers 1..5. -/
def analyzeScan (pages : Nat → Nat → List Workout) (fromiso : String → Option Int)
    (cutoff : Int) : List Workout × List (Nat × Nat) :=
  scanPagesAux pages fromiso cutoff [1, 2, 3, 4, 5]

/-- Python dict assignment d[k] = d.get(k, 0) + 1 on an insertion-ordered
dict modelled as an association list: an existing key is bumped in place
(its position is unchanged), a new key is appended at the end. -/
def dictIncr : List (String × Nat) → String → List (String × Nat)
  | [], k => [(k, 1)]
  | (k', v) :: rest, k =>
    if k' = k then (k', v + 1) :: rest else (k', v) :: dictIncr rest k

/-- Line 478: ex_title = ex.get("title", "Unknown"). -/
def exTitle (ex : ExerciseEntry) : String := ex.title.getD "Unknown"

/-- Lines 482-484: kg = s.get("weight_kg") or 0; reps = s.get("reps") or 0;
the set's contribution kg * reps to total_volume_kg. A missing (or null)
field falls to 0 through the or, as does a present 0 value. -/
def setVolume (s : SetEntry) : Rat :=
  (s.weight_kg.getD 0) * ((s.reps.getD 0 : Int) : Rat)

/-- The mutable accumulators of the summary loop (lines 468-470):
total_sets, total_volume_kg and the insertion-ordered exercise_counts. -/
structure AggAcc where
  total_sets : Nat
  total_volume_kg : Rat
  exercise_counts : List (String × Nat)
deriving DecidableEq

/-- The body of the set loop (lines 480-484): total_sets += 1 and
total_volume_kg += kg * reps. -/
def stepSet (acc : AggAcc) (s : SetEntry) : AggAcc :=
  { acc with
    total_sets := acc.total_sets + 1
    total_volume_kg := acc.total_volume_kg + setVolume s }

/-- The body of the exercise loop (lines 477-484): bump the exercise's
count once, then fold over ex.get("sets", []). -/
def stepExercise (acc : AggAcc) (ex : ExerciseEntry) : AggAcc :=
  ex.sets.foldl stepSet
    { acc with exercise_counts := dictIncr acc.exercise_counts (exTitle ex) }

/-- The body of the workout loop (lines 472-484): fold over
w.get("exercises", []). -/
def stepWorkout (acc : AggAcc) (w : Workout) : AggAcc :=
  w.exercises.foldl stepExercise acc

/-- The whole summary loop (lines 468-484) over the kept records. -/
def aggregate (ws : List Workout) : AggAcc :=
  ws.foldl stepWorkout { total_sets := 0, total_volume_kg := 0, exercise_counts := [] }

/-- Stable insertion of one entry into a list already sorted by descending
count: the entry goes before the first strictly smaller count, hence after
every earlier entry with an equal count. -/
def insertByCountDesc (x : String × Nat) : List (String × Nat) → List (String × Nat)
  | [] => [x]
  | y :: ys => if y.2 ≤ x.2 then x :: y :: ys else y :: insertByCountDesc x ys

/-- The call sorted(exercise_counts.items(), key=lambda x: -x[1]) of
line 499: a stable sort by descending count (Python's sorted is stable, so
equal counts keep their insertion order). -/
def sortByCountDesc : List (String × Nat) → List (String × Nat)
  | [] => []
  | x :: xs => insertByCountDesc x (sortByCountDesc xs)

/-- Line 499 in full: sorted(...)[:10]. -/
def topExercises (m : List (String × Nat)) : List (String × Nat) :=
  (sortByCountDesc m).take 10

/-- Round half to even on a rational, the tie-breaking used by Python's
fixed-point float formatting. -/
def roundHalfEven (x : Rat) : Int :=
  let f := x.floor
  if x - f < 1 / 2 then f
  else if 1 / 2 < x - f then f + 1
  else if f % 2 = 0 then f else f + 1

/-- Thousands separators: a comma every three digits from the right. -/
def groupRev : List Char → List Char
  | d1 :: d2 :: d3 :: d4 :: rest => d1 :: d2 :: d3 :: ',' :: groupRev (d4 :: rest)
  | l => l

/-- The format spec {:,.1f} of line 487: one decimal digit, thousands
separators in the integer part. -/
def formatVolume (q : Rat) : String :=
  let n10 := roundHalfEven (q * 10)
  let sign := if n10 < 0 then "-" else ""
  let a := n10.natAbs
  sign ++ (⟨(groupRev (toString (a / 10)).data.reverse).reverse⟩ : String)
    ++ "." ++ toString (a % 10)

/-- One line of the per-workout listing (lines 490-494):
date (start_time[:10]), title and exercise count. -/
def workoutLine (w : Workout) : String :=
  "  • " ++ (⟨(w.start_time.getD "").data.take 10⟩ : String) ++ " — "
    ++ w.title.getD "Untitled" ++ " (" ++ toString w.exercises.length ++ " exercises)"

/-- One line of the most-frequent-exercise listing (line 501). -/
def freqLine (kv : String × Nat) : String :=
  "  • " ++ kv.1 ++ ": " ++ toString kv.2 ++ "x"

/-- Line 462: the early-return message when no records were kept. -/
def noActivityMsg (days : Nat) : String :=
  "No workouts found in the last " ++ toString days ++ " days."

/-- The summary rendering of lines 465-503: header lines, totals, the
per-workout listing and, when any exercises were counted, the top-10
most-frequent-exercise listing. -/
def renderSummary (days : Nat) (ws : List Workout) : String :=
  let agg := aggregate ws
  let headerLines :=
    ["📊 **Training Summary — Last " ++ toString days ++ " days**", "",
     "Total workouts: " ++ toString ws.length,
     "Total sets: " ++ toString agg.total_sets,
     "Total volume: " ++ formatVolume agg.total_volume_kg ++ " kg", "",
     "**Workouts:**"]
  let workoutLines := ws.map workoutLine
  let freqLines :=
    if agg.exercise_counts = [] then []
    else ["", "**Most frequent exercises:**"]
      ++ (topExercises agg.exercise_counts).map freqLine
  String.intercalate "\n" (headerLines ++ workoutLines ++ freqLines)

/-- The tool analyze_recent_workouts (lines 422-503): scan up to five
pages against the cutoff, return the no-activity message if nothing was
kept, otherwise the rendered summary. -/
def analyze_recent_workouts (pages : Nat → Nat → List Workout)
    (fromiso : String → Option Int) (cutoff : Int) (days : Nat) : String :=
  let all_workouts := (analyzeScan pages fromiso cutoff).1
  if all_workouts = [] then noActivityMsg days
  else renderSummary days all_workouts

/-- One observable first step of a tool invocation: either a configuration
error raised before any I/O, or the adapter proceeding to its first network
call carrying the listed credential values. -/
inductive ToolStep where
  | configError (msg : String)
  | networkCall (credentials : List (Option String))
deriving DecidableEq

/-- The client configuration built by get_client in src/hevy_mcp/server.py
(lines 29-37): base URL, the api-key header value and the timeout. -/
structure HevyClient where
  base_url : String
  api_key : String
  timeout : Nat
deriving DecidableEq

/-- Lines 21-28 of src/hevy_mcp/server.py: api_key = os.environ.get("HEVY_API_KEY");
if not api_key (absent or empty): raise ValueError with the descriptive message;
otherwise build the authenticated client. -/
def get_client (env : String → Option String) : Except String HevyClient :=
  let api_key := (env "HEVY_API_KEY").getD ""
  if api_key = "" then
    .error ("HEVY_API_KEY environment variable is not set. Get your key at https://hevy.com/settings?developer")
  else
    .ok { base_url := "https://api.hevyapp.com/v1", api_key := api_key, timeout := 30 }

/-- A Hevy tool's first step: get_client runs before any request, so a
missing key surfaces as a configuration error; otherwise the tool proceeds
to the network with the key. -/
def hevy_tool_first_step (env : String → Option String) : ToolStep :=
  match get_client env with
  | .error m => .configError m
  | .ok c => .networkCall [some c.api_key]

/-- Lines 13-14 of src/stravamcpserver/server.py: stravalib.Client is built
with access_token=os.getenv("STRAVA_ACCESS_TOKEN") — no validation at all. -/
structure StravaClient where
  access_token : Option String
deriving DecidableEq

/-- The function underscore-strava-client of src/stravamcpserver/server.py. -/
def stravaClientOf (env : String → Option String) : StravaClient :=
  { access_token := env "STRAVA_ACCESS_TOKEN" }

/-- A Strava tool's first step (e.g. get_strava_activities, lines 70-72):
build the client from the environment, then immediately issue the API
request with whatever token value resulted — there is no check. -/
def strava_tool_first_step (env : String → Option String) : ToolStep :=
  .networkCall [(stravaClientOf env).access_token]

/-- Line 49 of src/mymcpserver/server.py: Garmin(os.getenv("GARMIN_EMAIL"),
os.getenv("GARMIN_PASSWORD")) followed by api.login() — no validation. -/
def garmin_tool_first_step (env : String → Option String) : ToolStep :=
  .networkCall [env "GARMIN_EMAIL", env "GARMIN_PASSWORD"]

/-- A JSON value as produced by Python's json.loads on UTF-8 API bodies:
null, booleans, integers (arbitrary precision), non-integer numbers as
exact decimals (the constructor dec m e denotes m times 10 to the power
-(e+1), i.e. a literal with e+1 fractional digits, which is how loads and
dumps transport a float's decimal repr; exponent-notation floats are
outside this fragment), strings as scalar code points, arrays and
insertion-ordered objects. -/
inductive Json where
  | null
  | bool (b : Bool)
  | int (n : Int)
  | dec (m : Int) (e : Nat)
  | str (s : List Char)
  | arr (elems : List Json)
  | obj (members : List (List Char × Json))

/-- Lowercase hexadecimal digit, as in Python's format spec 04x: code
point 48 + n for a decimal digit, 87 + n for the letters a to f. -/
def hexDigitChar (n : Nat) : Char :=
  Char.ofNat (if n < 10 then n + 48 else n + 87)

/-- A backslash-u escape of a 16-bit value, lowercase, as emitted by
json.dumps with ensure_ascii (the default). -/
def uEscape (n : Nat) : List Char :=
  ['\\', 'u', hexDigitChar (n / 4096 % 16), hexDigitChar (n / 256 % 16),
   hexDigitChar (n / 16 % 16), hexDigitChar (n % 16)]

/-- How json.dumps (ensure_ascii=True) emits one character: quote and
backslash escaped; the C0 shorthands for backspace, tab, newline, form
feed, carriage return; other control characters as backslash-u; printable
ASCII literally; every character above 0x7e as backslash-u, with a
surrogate pair beyond the basic multilingual plane. -/
def escapeChar (c : Char) : List Char :=
  if c = '"' then ['\\', '"']
  else if c = '\\' then ['\\', '\\']
  else if c = '\n' then ['\\', 'n']
  else if c = '\r' then ['\\', 'r']
  else if c = '\t' then ['\\', 't']
  else if c.toNat = 8 then ['\\', 'b']
  else if c.toNat = 12 then ['\\', 'f']
  else if c.toNat < 0x20 then uEscape c.toNat
  else if c.toNat < 0x7f then [c]
  else if c.toNat < 0x10000 then uEscape c.toNat
  else uEscape (0xd800 + (c.toNat - 0x10000) / 0x400)
    ++ uEscape (0xdc00 + (c.toNat - 0x10000) % 0x400)

/-- The body of a dumped string: every character escaped in order. -/
def escapeString : List Char → List Char
  | [] => []
  | c :: cs => escapeChar c ++ escapeString cs

/-- Decimal digit characters of n, most significant first, prepended to
acc; fuelled so the kernel can evaluate it (any fuel above n works). -/
def natDigitsCore : Nat → Nat → List Char → List Char
  | 0, _, acc => acc
  | fuel + 1, n, acc =>
    let d := Char.ofNat ('0'.toNat + n % 10)
    if n < 10 then d :: acc
    else natDigitsCore fuel (n / 10) (d :: acc)

/-- Decimal digit characters of n, as printed by repr. -/
def natDigits (n : Nat) : List Char := natDigitsCore (n + 1) n []

/-- An integer as printed by repr: optional minus sign, then digits. -/
def intChars (i : Int) : List Char :=
  (if i < 0 then ['-'] else []) ++ natDigits i.natAbs

/-- A digit string left-padded with zeros to width w. -/
def padDigits (w : Nat) (n : Nat) : List Char :=
  List.replicate (w - (natDigits n).length) '0' ++ natDigits n

/-- The plain-decimal float repr with e+1 fractional digits: sign, integer
part, a dot, then the fractional digits zero-padded to full width. -/
def decChars (m : Int) (e : Nat) : List Char :=
  (if m < 0 then ['-'] else []) ++ natDigits (m.natAbs / 10 ^ (e + 1))
    ++ '.' :: padDigits (e + 1) (m.natAbs % 10 ^ (e + 1))

/-- The indentation json.dumps(indent=2) puts before an element at nesting
level lvl: two spaces per level. -/
def jIndent (lvl : Nat) : List Char := List.replicate (2 * lvl) ' '

mutual
/-- The output of json.dumps(value, indent=2) at nesting level lvl, as a
character list: scalars inline; a non-empty array opens a bracket, puts
each element on its own line indented one level deeper, separates elements
with a comma, and closes the bracket on a fresh line at the outer level;
objects do the same with key, colon, space, value members; empty arrays
and objects print inline. -/
def printValue (lvl : Nat) : Json → List Char
  | .int n => intChars n
  | .dec m e => decChars m e
  | .str s => '"' :: (escapeString s ++ ['"'])
  | .null => ['n', 'u', 'l', 'l']
  | .bool false => ['f', 'a', 'l', 's', 'e']
  | .bool true => ['t', 'r', 'u', 'e']
  | .arr [] => ['[', ']']
  | .arr (x :: xs) =>
    '[' :: '\n' :: (jIndent (lvl + 1)
      ++ (printItems (lvl + 1) (x :: xs) ++ ('\n' :: (jIndent lvl ++ [']']))))
  | .obj [] => ['{', '}']
  | .obj (kv :: ms) =>
    '{' :: '\n' :: (jIndent (lvl + 1)
      ++ (printMembers (lvl + 1) (kv :: ms) ++ ('\n' :: (jIndent lvl ++ ['}']))))

/-- The comma-and-newline separated element list of a dumped array. -/
def printItems (lvl : Nat) : List Json → List Char
  | [] => []
  | [x] => printValue lvl x
  | x :: y :: ys =>
    printValue lvl x ++ (',' :: '\n' :: (jIndent lvl ++ printItems lvl (y :: ys)))

/-- The member list of a dumped object: quoted key, colon, one space,
value, members separated by comma and newline. -/
def printMembers (lvl : Nat) : List (List Char × Json) → List Char
  | [] => []
  | [(k, v)] => '"' :: (escapeString k ++ ('"' :: ':' :: ' ' :: printValue lvl v))
  | (k, v) :: m :: ms =>
    ('"' :: (escapeString k ++ ('"' :: ':' :: ' ' :: printValue lvl v)))
      ++ (',' :: '\n' :: (jIndent lvl ++ printMembers lvl (m :: ms)))
end

/-- The call json.dumps(value, indent=2) used by every pass-through tool. -/
def dumps (v : Json) : String := ⟨printValue 0 v⟩

/-- JSON insignificant whitespace, by code point: tab (9), newline (10),
carriage return (13), space (32). -/
def isWsChar (c : Char) : Bool :=
  c.toNat = 9 || c.toNat = 10 || c.toNat = 13 || c.toNat = 32

/-- Drop leading insignificant whitespace. -/
def skipWs : List Char → List Char
  | [] => []
  | c :: cs => if isWsChar c then skipWs cs else c :: cs

/-- An ASCII decimal digit. -/
def isDigitChar (c : Char) : Bool := 48 ≤ c.toNat && c.toNat ≤ 57

/-- Split off the longest leading run of decimal digits. -/
def spanDigits : List Char → List Char × List Char
  | [] => ([], [])
  | c :: cs =>
    if isDigitChar c then
      let r := spanDigits cs
      (c :: r.1, r.2)
    else ([], c :: cs)

/-- The numeric value of a digit run. -/
def digitsValue (ds : List Char) : Nat :=
  ds.foldl (fun acc c => 10 * acc + (c.toNat - 48)) 0

/-- The value of one hexadecimal digit, either case (int(s, 16)). -/
def hexDigitValue (c : Char) : Option Nat :=
  if 48 ≤ c.toNat ∧ c.toNat ≤ 57 then some (c.toNat - 48)
  else if 97 ≤ c.toNat ∧ c.toNat ≤ 102 then some (c.toNat - 87)
  else if 65 ≤ c.toNat ∧ c.toNat ≤ 70 then some (c.toNat - 55)
  else none

/-- The value of a four-hex-digit escape payload. -/
def hexQuad (a b c d : Char) : Option Nat :=
  match hexDigitValue a, hexDigitValue b, hexDigitValue c, hexDigitValue d with
  | some va, some vb, some vc, some vd => some (va * 4096 + vb * 256 + vc * 16 + vd)
  | _, _, _, _ => none

/-- The one-character escapes the scanner accepts after a backslash. -/
def shortEscape (c : Char) : Option Char :=
  if c = '"' then some '"'
  else if c = '\\' then some '\\'
  else if c = '/' then some '/'
  else if c = 'b' then some (Char.ofNat 8)
  else if c = 'f' then some (Char.ofNat 12)
  else if c = 'n' then some '\n'
  else if c = 'r' then some '\r'
  else if c = 't' then some '\t'
  else none

/-- The string scanner of json.loads after the opening quote: literal
characters accumulate; a backslash-u escape yields its code unit, and a
high-surrogate escape immediately followed by a low-surrogate escape
combines into one supplementary character (a lone surrogate escape, which
Python would keep as an unpaired surrogate, has no scalar-value
representation here and is rejected); a closing quote ends the string. -/
def parseStringBody (acc : List Char) : List Char → Option (List Char × List Char)
  | [] => none
  | '"' :: rest => some (acc.reverse, rest)
  | '\\' :: 'u' :: a :: b :: c :: d :: rest =>
    match hexQuad a b c d with
    | none => none
    | some n =>
      if 0xd800 ≤ n ∧ n < 0xdc00 then
        match rest with
        | '\\' :: 'u' :: a2 :: b2 :: c2 :: d2 :: rest2 =>
          match hexQuad a2 b2 c2 d2 with
          | some n2 =>
            if 0xdc00 ≤ n2 ∧ n2 < 0xe000 then
              parseStringBody
                (Char.ofNat (0x10000 + (n - 0xd800) * 0x400 + (n2 - 0xdc00)) :: acc) rest2
            else none
          | none => none
        | _ => none
      else if 0xdc00 ≤ n ∧ n < 0xe000 then none
      else parseStringBody (Char.ofNat n :: acc) rest
  | '\\' :: e :: rest =>
    match shortEscape e with
    | some ch => parseStringBody (ch :: acc) rest
    | none => none
  | c :: rest => parseStringBody (c :: acc) rest

/-- The number scanner: optional minus, an integer digit run, then either
a dot and a fractional digit run (a float, kept as an exact decimal) or
nothing (an int). -/
def parseNumber (cs : List Char) : Option (Json × List Char) :=
  let sc : Bool × List Char := match cs with
    | '-' :: r => (true, r)
    | _ => (false, cs)
  let ds := spanDigits sc.2
  if ds.1 = [] then none
  else
    match ds.2 with
    | '.' :: r =>
      let fs := spanDigits r
      if fs.1 = [] then none
      else
        let mag := digitsValue ds.1 * 10 ^ fs.1.length + digitsValue fs.1
        some (.dec (if sc.1 then -(mag : Int) else (mag : Int)) (fs.1.length - 1), fs.2)
    | _ =>
      some (.int (if sc.1 then -(digitsValue ds.1 : Int) else (digitsValue ds.1 : Int)), ds.2)

mutual
/-- The recursive-descent value scanner of json.loads, fuelled for
totality: skip whitespace, then dispatch on the first character — the
null, true and false keywords, a quoted string, a bracketed element list,
a braced member list, or a number. -/
def parseValue : Nat → List Char → Option (Json × List Char)
  | 0, _ => none
  | fuel + 1, cs =>
    match skipWs cs with
    | 'n' :: 'u' :: 'l' :: 'l' :: r => some (.null, r)
    | 't' :: 'r' :: 'u' :: 'e' :: r => some (.bool true, r)
    | 'f' :: 'a' :: 'l' :: 's' :: 'e' :: r => some (.bool false, r)
    | '"' :: r =>
      match parseStringBody [] r with
      | some sr => some (.str sr.1, sr.2)
      | none => none
    | '[' :: r =>
      match skipWs r with
      | ']' :: r2 => some (.arr [], r2)
      | r2 =>
        match parseItems fuel r2 with
        | some er => some (.arr er.1, er.2)
        | none => none
    | '{' :: r =>
      match skipWs r with
      | '}' :: r2 => some (.obj [], r2)
      | r2 =>
        match parseMembers fuel r2 with
        | some mr => some (.obj mr.1, mr.2)
        | none => none
    | c :: r =>
      if c == '-' || isDigitChar c then parseNumber (c :: r)
      else none
    | [] => none

/-- One or more comma-separated array elements, up to the closing bracket. -/
def parseItems : Nat → List Char → Option (List Json × List Char)
  | 0, _ => none
  | fuel + 1, cs =>
    match parseValue fuel cs with
    | none => none
    | some vr =>
      match skipWs vr.2 with
      | ',' :: r2 =>
        match parseItems fuel r2 with
        | some er => some (vr.1 :: er.1, er.2)
        | none => none
      | ']' :: r2 => some ([vr.1], r2)
      | _ => none

/-- One or more comma-separated object members, up to the closing brace. -/
def parseMembers : Nat → List Char → Option (List (List Char × Json) × List Char)
  | 0, _ => none
  | fuel + 1, cs =>
    match skipWs cs with
    | '"' :: r =>
      match parseStringBody [] r with
      | none => none
      | some kr =>
        match skipWs kr.2 with
        | ':' :: r2 =>
          match parseValue fuel r2 with
          | none => none
          | some vr =>
            match skipWs vr.2 with
            | ',' :: r3 =>
              match parseMembers fuel r3 with
              | some mr => some ((kr.1, vr.1) :: mr.1, mr.2)
              | none => none
            | '}' :: r3 => some ([(kr.1, vr.1)], r3)
            | _ => none
        | _ => none
    | _ => none
end

/-- The call json.loads(s): parse one value (the fuel bound input length
plus one is enough for any input the printer produces) and require that
only whitespace remains. -/
def loads (s : String) : Option Json :=
  match parseValue (s.data.length + 1) s.data with
  | some vr => if skipWs vr.2 = [] then some vr.1 else none
  | none => none

/-- An upstream HTTP response: status code and body text. -/
structure HttpResponse where
  status : Nat
  body : String
deriving DecidableEq

/-- The success test of httpx's raise_for_status: a 2xx status code. -/
def is2xx (r : HttpResponse) : Bool := decide (200 ≤ r.status ∧ r.status < 300)

/-- The outcome of one API-client verb: the error httpx's raise_for_status
throws on any non-2xx response (carrying the status and the body), a JSON
decoding failure from response.json(), or a parsed value. -/
inductive ApiResult where
  | apiError (status : Nat) (body : String)
  | decodeFailure
  | ok (v : Json)

/-- Lines 40-45 of src/hevy_mcp/server.py (api_get): raise_for_status,
then response.json(). -/
def api_get (resp : HttpResponse) : ApiResult :=
  if is2xx resp then
    match loads resp.body with
    | some v => .ok v
    | none => .decodeFailure
  else .apiError resp.status resp.body

/-- Lines 48-53 (api_post): identical response handling to api_get. -/
def api_post (resp : HttpResponse) : ApiResult :=
  if is2xx resp then
    match loads resp.body with
    | some v => .ok v
    | none => .decodeFailure
  else .apiError resp.status resp.body

/-- Lines 56-61 (api_put): identical response handling to api_get. -/
def api_put (resp : HttpResponse) : ApiResult :=
  if is2xx resp then
    match loads resp.body with
    | some v => .ok v
    | none => .decodeFailure
  else .apiError resp.status resp.body

/-- The canonical marker api_delete returns for an empty body:
the dict literal of line 71. -/
def successMarker : Json := Json.obj [("success".data, Json.bool true)]

/-- Lines 64-71 (api_delete): raise_for_status, then response.json() only
when the body is non-empty, else the canonical success marker. -/
def api_delete (resp : HttpResponse) : ApiResult :=
  if is2xx resp then
    if resp.body = "" then .ok successMarker
    else
      match loads resp.body with
      | some v => .ok v
      | none => .decodeFailure
  else .apiError resp.status resp.body

/-- Lines 104-116 (the get_workout tool): data = api_get(...); return
json.dumps(data, indent=2). An upstream failure propagates (none here). -/
def get_workout (resp : HttpResponse) : Option String :=
  match api_get resp with
  | .ok data => some (dumps data)
  | _ => none

/-- The keys of an insertion-ordered counts dict, in order. -/
def keysOf (m : List (String × Nat)) : List String := m.map Prod.fst

/-- The count stored for a key (0 when the key is absent). -/
def lookupCount (m : List (String × Nat)) (k : String) : Nat :=
  match m.find? (fun kv => kv.1 == k) with
  | some kv => kv.2
  | none => 0

/-- The titles of all exercise entries of all kept records, in scan order:
one occurrence per entry, regardless of how many sets the entry has. -/
def allTitles (ws : List Workout) : List String :=
  (ws.map (fun w => w.exercises.map exTitle)).flatten

/-- First-seen deduplication: the order in which distinct values first
appear in the list. -/
def firstSeen (l : List String) : List String :=
  l.foldl (fun acc t => if t ∈ acc then acc else acc ++ [t]) []

/-- The total number of records contained in the pages a request log
touched. -/
def scannedCount (pages : Nat → Nat → List Workout) (log : List (Nat × Nat)) : Nat :=
  (log.map (fun pr => (pages pr.1 pr.2).length)).sum

/-- The specification's formula for a set's volume contribution: weight
times reps, treating a missing weight or reps as 0. Stated from the
spec's words, for comparison with the code's setVolume. -/
def specSetVolume (s : SetEntry) : Rat :=
  match s.weight_kg, s.reps with
  | some kg, some r => kg * ((r : Int) : Rat)
  | _, _ => 0

/-- The specification's total volume over kept records: the sum over all
sets of all kept records of the per-set contribution. -/
def specTotalVolume (ws : List Workout) : Rat :=
  (ws.map (fun w =>
    (w.exercises.map (fun ex => (ex.sets.map specSetVolume).sum)).sum)).sum

/-- A remainder the number scanner cannot extend: empty, or headed by a
character that is neither a digit nor a dot. Every character the printer
puts after a number (comma, newline, closing bracket or brace) qualifies. -/
def numDelim : List Char → Bool
  | [] => true
  | c :: _ => !(isDigitChar c || c == '.')

theorem keepsRecord_of_none {fromiso : String → Option Int} {cutoff : Int} {w : Workout}
    (h : parsedStart fromiso w = none) : keepsRecord fromiso cutoff w = false := by
  simp [keepsRecord, h]

theorem scanPage_no_stop (fromiso : String → Option Int) (cutoff : Int) :
    ∀ l : List Workout, (∀ v ∈ l, stopsRecord fromiso cutoff v = false) →
      scanPage fromiso cutoff l = (l.filter (keepsRecord fromiso cutoff), false) := by
  intro l h
  induction l with
  | nil => rfl
  | cons w ws ih =>
    have hw := h w (List.mem_cons_self ..)
    have hws := ih (fun v hv => h v (List.mem_cons_of_mem _ hv))
    cases hp : parsedStart fromiso w with
    | none =>
      simp [scanPage, hp, hws, List.filter_cons, keepsRecord_of_none hp]
    | some t =>
      have hts : ¬ t < cutoff := by
        simpa [stopsRecord, hp] using hw
      have hle : cutoff ≤ t := le_of_not_lt hts
      have hk : keepsRecord fromiso cutoff w = true := by
        simp [keepsRecord, hp, hle]
      simp [scanPage, hp, hle, hws, List.filter_cons, hk]

theorem scanPage_stop (fromiso : String → Option Int) (cutoff : Int) :
    ∀ (pre : List Workout) (w : Workout) (post : List Workout),
      (∀ v ∈ pre, stopsRecord fromiso cutoff v = false) →
      stopsRecord fromiso cutoff w = true →
      scanPage fromiso cutoff (pre ++ w :: post)
        = (pre.filter (keepsRecord fromiso cutoff), true) := by
  intro pre
  induction pre with
  | nil =>
    intro w post _ hw
    obtain ⟨t, hp, hlt⟩ : ∃ t, parsedStart fromiso w = some t ∧ t < cutoff := by
      cases hp : parsedStart fromiso w with
      | none => simp [stopsRecord, hp] at hw
      | some t => exact ⟨t, rfl, by simpa [stopsRecord, hp] using hw⟩
    simp [scanPage, hp, not_le_of_lt hlt]
  | cons a pre ih =>
    intro w post hpre hw
    have ha := hpre a (List.mem_cons_self ..)
    have hih := ih w post (fun v hv => hpre v (List.mem_cons_of_mem _ hv)) hw
    cases hp : parsedStart fromiso a with
    | none =>
      simp [scanPage, hp, hih, List.filter_cons, keepsRecord_of_none hp]
    | some t =>
      have hle : cutoff ≤ t := le_of_not_lt (by simpa [stopsRecord, hp] using ha)
      have hk : keepsRecord fromiso cutoff a = true := by
        simp [keepsRecord, hp, hle]
      simp [scanPage, hp, hle, hih, List.filter_cons, hk]

theorem scanPage_skip (fromiso : String → Option Int) (cutoff : Int) :
    ∀ (l₁ : List Workout) (w : Workout) (l₂ : List Workout),
      parsedStart fromiso w = none →
      scanPage fromiso cutoff (l₁ ++ w :: l₂) = scanPage fromiso cutoff (l₁ ++ l₂) := by
  intro l₁
  induction l₁ with
  | nil =>
    intro w l₂ hp
    simp [scanPage, hp]
  | cons a l₁ ih =>
    intro w l₂ hp
    cases ha : parsedStart fromiso a with
    | none => simp [scanPage, ha, ih w l₂ hp]
    | some t => simp [scanPage, ha, ih w l₂ hp]

theorem scanPage_kept_subset (fromiso : String → Option Int) (cutoff : Int) :
    ∀ l : List Workout, (scanPage fromiso cutoff l).1 ⊆ l := by
  intro l
  induction l with
  | nil => simp [scanPage]
  | cons w ws ih =>
    cases hp : parsedStart fromiso w with
    | none =>
      simp only [scanPage, hp]
      exact ih.trans (List.subset_cons_self ..)
    | some t =>
      by_cases hle : cutoff ≤ t
      · simp only [scanPage, hp, if_pos hle]
        exact List.cons_subset_cons w ih
      · simp [scanPage, hp, if_neg hle]

theorem scanPagesAux_stop_general (pages : Nat → Nat → List Workout)
    (fromiso : String → Option Int) (cutoff : Int) (p : Nat)
    (pre post : List Workout) (w : Workout) :
    ∀ (ps₁ : List Nat) (ps₂ : List Nat),
      (∀ j ∈ ps₁, pages j 10 ≠ [] ∧ ∀ v ∈ pages j 10, stopsRecord fromiso cutoff v = false) →
      pages p 10 = pre ++ w :: post →
      (∀ v ∈ pre, stopsRecord fromiso cutoff v = false) →
      stopsRecord fromiso cutoff w = true →
      scanPagesAux pages fromiso cutoff (ps₁ ++ p :: ps₂)
        = ((ps₁.map (fun j => (pages j 10).filter (keepsRecord fromiso cutoff))).flatten
            ++ pre.filter (keepsRecord fromiso cutoff),
           ps₁.map (fun j => (j, 10)) ++ [(p, 10)]) := by
  intro ps₁
  induction ps₁ with
  | nil =>
    intro ps₂ _ hpage hpre hw
    have hne : pages p 10 ≠ [] := by simp [hpage]
    have hscan := scanPage_stop fromiso cutoff pre w post hpre hw
    simp [scanPagesAux, hne, hpage, hscan]
  | cons j js ih =>
    intro ps₂ hfull hpage hpre hw
    have hj := hfull j (List.mem_cons_self ..)
    have hscanj := scanPage_no_stop fromiso cutoff (pages j 10) hj.2
    have hih := ih ps₂ (fun x hx => hfull x (List.mem_cons_of_mem _ hx)) hpage hpre hw
    simp [scanPagesAux, hj.1, hscanj, hih, List.append_assoc]

/-- C1: over any page sequence, a record whose parsed start_time is at
least the cutoff is kept, and the first record whose parsed start_time is
strictly below the cutoff ends the scan entirely: the kept records are
exactly the keeping records seen before it (the rest of its page — post —
is never examined, whatever it contains), and no page after its page is
requested. -/
theorem claim_C1 (pages : Nat → Nat → List Workout) (fromiso : String → Option Int)
    (cutoff : Int) (ps₁ ps₂ : List Nat) (p : Nat)
    (pre post : List Workout) (w : Workout)
    (hsplit : ps₁ ++ p :: ps₂ = [1, 2, 3, 4, 5])
    (hfull : ∀ j ∈ ps₁, pages j 10 ≠ []
      ∧ ∀ v ∈ pages j 10, stopsRecord fromiso cutoff v = false)
    (hpage : pages p 10 = pre ++ w :: post)
    (hpre : ∀ v ∈ pre, stopsRecord fromiso cutoff v = false)
    (hstop : stopsRecord fromiso cutoff w = true) :
    analyzeScan pages fromiso cutoff
      = ((ps₁.map (fun j => (pages j 10).filter (keepsRecord fromiso cutoff))).flatten
          ++ pre.filter (keepsRecord fromiso cutoff),
         ps₁.map (fun j => (j, 10)) ++ [(p, 10)]) := by
  rw [analyzeScan, ← hsplit]
  exact scanPagesAux_stop_general pages fromiso cutoff p pre post w ps₁ ps₂ hfull hpage hpre hstop

theorem scanPagesAux_log_take (pages : Nat → Nat → List Workout)
    (fromiso : String → Option Int) (cutoff : Int) :
    ∀ ps : List Nat, ∃ n, n ≤ ps.length ∧
      (scanPagesAux pages fromiso cutoff ps).2 = (ps.take n).map (fun j => (j, 10)) := by
  intro ps
  induction ps with
  | nil => exact ⟨0, by simp [scanPagesAux]⟩
  | cons p ps ih =>
    by_cases hp : pages p 10 = []
    · refine ⟨1, by simp, ?_⟩
      simp [scanPagesAux, hp]
    · by_cases hstop : (scanPage fromiso cutoff (pages p 10)).2
      · refine ⟨1, by simp, ?_⟩
        simp [scanPagesAux, hp, hstop]
      · obtain ⟨n, hn, hlog⟩ := ih
        refine ⟨n + 1, by simpa using Nat.succ_le_succ hn, ?_⟩
        simp [scanPagesAux, hp, hstop, hlog]

theorem scanPagesAux_empty_last (pages : Nat → Nat → List Workout)
    (fromiso : String → Option Int) (cutoff : Int) :
    ∀ (ps : List Nat) (j : Nat), (j, 10) ∈ (scanPagesAux pages fromiso cutoff ps).2 →
      pages j 10 = [] →
      (scanPagesAux pages fromiso cutoff ps).2.getLast? = some (j, 10) := by
  intro ps
  induction ps with
  | nil => simp [scanPagesAux]
  | cons p ps ih =>
    intro j hmem hempty
    by_cases hp : pages p 10 = []
    · simp only [scanPagesAux, if_pos hp] at hmem ⊢
      simp only [List.mem_singleton] at hmem
      simp [hmem]
    · by_cases hstop : (scanPage fromiso cutoff (pages p 10)).2
      · simp only [scanPagesAux, if_neg hp, if_pos hstop] at hmem ⊢
        simp only [List.mem_singleton, Prod.mk.injEq] at hmem
        exact absurd (hmem.1 ▸ hempty) hp
      · simp only [scanPagesAux, if_neg hp, if_neg hstop] at hmem ⊢
        rcases List.mem_cons.mp hmem with heq | htail
        · have hj : j = p := congrArg Prod.fst heq
          exact absurd (hj ▸ hempty) hp
        · have hlast := ih j htail hempty
          have hne : (scanPagesAux pages fromiso cutoff ps).2 ≠ [] := by
            intro hnil
            rw [hnil] at htail
            exact absurd htail (List.not_mem_nil _)
          obtain ⟨x, xs, hxs⟩ := List.exists_cons_of_ne_nil hne
          rw [hxs] at hlast ⊢
          rw [List.getLast?_cons_cons]
          exact hlast

theorem sum_map_le_ten (f : Nat × Nat → Nat) :
    ∀ l : List (Nat × Nat), (∀ x ∈ l, f x ≤ 10) → (l.map f).sum ≤ 10 * l.length := by
  intro l
  induction l with
  | nil => simp
  | cons x xs ih =>
    intro h
    have hx := h x (List.mem_cons_self ..)
    have hxs := ih (fun y hy => h y (List.mem_cons_of_mem _ hy))
    simp only [List.map_cons, List.sum_cons, List.length_cons]
    omega

/-- C2: for every server behaviour, the request log of
analyze_recent_workouts is a prefix of pages 1..5 each requested with
pageSize 10 (so fetching starts at page 1, proceeds sequentially and
issues at most 5 fetches); when the server honours the page size the scan
touches at most 50 records; and a fetched page that returns zero records
is the last page fetched. -/
theorem claim_C2 (pages : Nat → Nat → List Workout) (fromiso : String → Option Int)
    (cutoff : Int) (h10 : ∀ j, (pages j 10).length ≤ 10) :
    (∃ k, k ≤ 5 ∧ (analyzeScan pages fromiso cutoff).2
        = ([1, 2, 3, 4, 5].take k).map (fun j => (j, 10)))
    ∧ scannedCount pages (analyzeScan pages fromiso cutoff).2 ≤ 50
    ∧ (∀ j, (j, 10) ∈ (analyzeScan pages fromiso cutoff).2 → pages j 10 = [] →
        (analyzeScan pages fromiso cutoff).2.getLast? = some (j, 10)) := by
  obtain ⟨n, hn, hlog⟩ := scanPagesAux_log_take pages fromiso cutoff [1, 2, 3, 4, 5]
  refine ⟨⟨n, by simpa using hn, hlog⟩, ?_, ?_⟩
  · have hmem : ∀ x ∈ (analyzeScan pages fromiso cutoff).2,
        (pages x.1 x.2).length ≤ 10 := by
      intro x hx
      rw [show (analyzeScan pages fromiso cutoff).2
          = (scanPagesAux pages fromiso cutoff [1, 2, 3, 4, 5]).2 from rfl, hlog] at hx
      obtain ⟨j, _, rfl⟩ := List.mem_map.mp hx
      exact h10 j
    have hlen : (analyzeScan pages fromiso cutoff).2.length ≤ 5 := by
      rw [show (analyzeScan pages fromiso cutoff).2
          = (scanPagesAux pages fromiso cutoff [1, 2, 3, 4, 5]).2 from rfl, hlog]
      simp [List.length_take]
    have := sum_map_le_ten (fun pr => (pages pr.1 pr.2).length)
      (analyzeScan pages fromiso cutoff).2 hmem
    unfold scannedCount
    omega
  · intro j hj hempty
    exact scanPagesAux_empty_last pages fromiso cutoff [1, 2, 3, 4, 5] j hj hempty

theorem claim_C2_witness :
    (∀ j, (((fun (_ _ : Nat) => ([] : List Workout)) : Nat → Nat → List Workout) j 10).length ≤ 10)
    ∧ ((∃ k, k ≤ 5 ∧ (analyzeScan (fun _ _ => []) (fun _ => none) 0).2
          = ([1, 2, 3, 4, 5].take k).map (fun j => (j, 10)))
      ∧ scannedCount (fun _ _ => []) (analyzeScan (fun _ _ => []) (fun _ => none) 0).2 ≤ 50
      ∧ (∀ j, (j, 10) ∈ (analyzeScan (fun _ _ => []) (fun _ => none) 0).2 →
          (fun (_ _ : Nat) => ([] : List Workout)) j 10 = [] →
          (analyzeScan (fun _ _ => []) (fun _ => none) 0).2.getLast? = some (j, 10))) :=
  ⟨fun _ => by simp, claim_C2 (fun _ _ => []) (fun _ => none) 0 (fun _ => by simp)⟩

/-- C7: a record whose start_time is non-empty but fails to parse (the
fromiso pipeline, fed the Z-normalised string, yields none) is skipped and
the scan of the page continues exactly as if the record were absent — in
particular it neither aborts the aggregation (the function is total) nor
triggers the early stop. -/
theorem claim_C7 (fromiso : String → Option Int) (cutoff : Int)
    (l₁ l₂ : List Workout) (w : Workout)
    (hne : ¬ w.start_time.getD "" = "")
    (hfail : fromiso (replaceZ (w.start_time.getD "")) = none) :
    scanPage fromiso cutoff (l₁ ++ w :: l₂) = scanPage fromiso cutoff (l₁ ++ l₂) := by
  have hp : parsedStart fromiso w = none := by
    simp [parsedStart, hne, hfail]
  exact scanPage_skip fromiso cutoff l₁ w l₂ hp

theorem claim_C7_witness :
    (¬ (Workout.mk none (some "2024-13-99T99:99:99Z") []).start_time.getD "" = "")
    ∧ ((fun (_ : String) => (none : Option Int))
        (replaceZ ((Workout.mk none (some "2024-13-99T99:99:99Z") []).start_time.getD "")) = none)
    ∧ scanPage (fun _ => none) 7
        ([Workout.mk none none []] ++ Workout.mk none (some "2024-13-99T99:99:99Z") []
          :: [Workout.mk none none []])
      = scanPage (fun _ => none) 7 ([Workout.mk none none []] ++ [Workout.mk none none []]) :=
  ⟨by decide, rfl,
   claim_C7 (fun _ => none) 7 [Workout.mk none none []] [Workout.mk none none []]
     (Workout.mk none (some "2024-13-99T99:99:99Z") []) (by decide) rfl⟩

/-- C10: a record whose start_time field is missing or empty is silently
skipped: the page scans exactly as if the record were absent, the record
is never kept (so it contributes to no total), and — unlike a record
parsed as older than the cutoff — it does not trigger early termination
(the stop flag is unchanged). -/
theorem claim_C10 (fromiso : String → Option Int) (cutoff : Int)
    (l₁ l₂ : List Workout) (w : Workout)
    (hmiss : w.start_time = none ∨ w.start_time = some "")
    (hnot : w ∉ l₁ ++ l₂) :
    scanPage fromiso cutoff (l₁ ++ w :: l₂) = scanPage fromiso cutoff (l₁ ++ l₂)
    ∧ w ∉ (scanPage fromiso cutoff (l₁ ++ w :: l₂)).1
    ∧ (scanPage fromiso cutoff (l₁ ++ w :: l₂)).2 = (scanPage fromiso cutoff (l₁ ++ l₂)).2 := by
  have hp : parsedStart fromiso w = none := by
    rcases hmiss with h | h <;> simp [parsedStart, h]
  have heq := scanPage_skip fromiso cutoff l₁ w l₂ hp
  refine ⟨heq, ?_, by rw [heq]⟩
  rw [heq]
  intro hmem
  exact hnot (scanPage_kept_subset fromiso cutoff (l₁ ++ l₂) hmem)

theorem claim_C10_witness :
    ((Workout.mk none none []).start_time = none ∨ (Workout.mk none none []).start_time = some "")
    ∧ (Workout.mk none none [] ∉ [Workout.mk (some "A") (some "s") []] ++ ([] : List Workout))
    ∧ (scanPage (fun _ => some 10) 7
        ([Workout.mk (some "A") (some "s") []] ++ Workout.mk none none [] :: [])
        = scanPage (fun _ => some 10) 7 ([Workout.mk (some "A") (some "s") []] ++ [])
      ∧ Workout.mk none none []
        ∉ (scanPage (fun _ => some 10) 7
            ([Workout.mk (some "A") (some "s") []] ++ Workout.mk none none [] :: [])).1
      ∧ (scanPage (fun _ => some 10) 7
          ([Workout.mk (some "A") (some "s") []] ++ Workout.mk none none [] :: [])).2
        = (scanPage (fun _ => some 10) 7 ([Workout.mk (some "A") (some "s") []] ++ [])).2) :=
  ⟨Or.inl rfl, by decide,
   claim_C10 (fun _ => some 10) 7 [Workout.mk (some "A") (some "s") []] []
     (Workout.mk none none []) (Or.inl rfl) (by decide)⟩

theorem claim_C1_witness :
    ([1] ++ 2 :: [3, 4, 5] = [1, 2, 3, 4, 5])
    ∧ (∀ j ∈ [1], (fun p (_ : Nat) =>
          if p = 1 then [Workout.mk none (some "N") []]
          else if p = 2 then
            [Workout.mk none (some "N") [], Workout.mk none (some "O") [],
             Workout.mk none (some "N") []]
          else []) j 10 ≠ []
        ∧ ∀ v ∈ (fun p (_ : Nat) =>
          if p = 1 then [Workout.mk none (some "N") []]
          else if p = 2 then
            [Workout.mk none (some "N") [], Workout.mk none (some "O") [],
             Workout.mk none (some "N") []]
          else []) j 10,
          stopsRecord (fun s => if s = "N" then some 10 else if s = "O" then some 5 else none)
            7 v = false)
    ∧ ((fun p (_ : Nat) =>
          if p = 1 then [Workout.mk none (some "N") []]
          else if p = 2 then
            [Workout.mk none (some "N") [], Workout.mk none (some "O") [],
             Workout.mk none (some "N") []]
          else []) 2 10
        = [Workout.mk none (some "N") []] ++ Workout.mk none (some "O") []
            :: [Workout.mk none (some "N") []])
    ∧ (∀ v ∈ [Workout.mk none (some "N") []],
        stopsRecord (fun s => if s = "N" then some 10 else if s = "O" then some 5 else none)
          7 v = false)
    ∧ (stopsRecord (fun s => if s = "N" then some 10 else if s = "O" then some 5 else none)
        7 (Workout.mk none (some "O") []) = true)
    ∧ analyzeScan (fun p (_ : Nat) =>
          if p = 1 then [Workout.mk none (some "N") []]
          else if p = 2 then
            [Workout.mk none (some "N") [], Workout.mk none (some "O") [],
             Workout.mk none (some "N") []]
          else [])
        (fun s => if s = "N" then some 10 else if s = "O" then some 5 else none) 7
      = (([1].map (fun j => ((fun p (_ : Nat) =>
            if p = 1 then [Workout.mk none (some "N") []]
            else if p = 2 then
              [Workout.mk none (some "N") [], Workout.mk none (some "O") [],
               Workout.mk none (some "N") []]
            else []) j 10).filter
            (keepsRecord
              (fun s => if s = "N" then some 10 else if s = "O" then some 5 else none) 7))).flatten
          ++ [Workout.mk none (some "N") []].filter
            (keepsRecord
              (fun s => if s = "N" then some 10 else if s = "O" then some 5 else none) 7),
         [1].map (fun j => (j, 10)) ++ [(2, 10)]) :=
  ⟨rfl, by decide, by decide, by decide, by decide,
   claim_C1 _ _ 7 [1] [3, 4, 5] 2 [Workout.mk none (some "N") []]
     [Workout.mk none (some "N") []] (Workout.mk none (some "O") [])
     rfl (by decide) (by decide) (by decide) (by decide)⟩

theorem foldl_stepSet_volume (sets : List SetEntry) :
    ∀ acc : AggAcc, (sets.foldl stepSet acc).total_volume_kg
      = acc.total_volume_kg + (sets.map setVolume).sum := by
  induction sets with
  | nil => intro acc; simp
  | cons s rest ih =>
    intro acc
    simp [List.foldl_cons, ih, stepSet, add_assoc]

theorem stepExercise_volume (acc : AggAcc) (ex : ExerciseEntry) :
    (stepExercise acc ex).total_volume_kg
      = acc.total_volume_kg + (ex.sets.map setVolume).sum := by
  simp [stepExercise, foldl_stepSet_volume]

theorem foldl_stepExercise_volume (exs : List ExerciseEntry) :
    ∀ acc : AggAcc, (exs.foldl stepExercise acc).total_volume_kg
      = acc.total_volume_kg + (exs.map (fun ex => (ex.sets.map setVolume).sum)).sum := by
  induction exs with
  | nil => intro acc; simp
  | cons ex rest ih =>
    intro acc
    simp [List.foldl_cons, ih, stepExercise_volume, add_assoc]

theorem foldl_stepWorkout_volume (ws : List Workout) :
    ∀ acc : AggAcc, (ws.foldl stepWorkout acc).total_volume_kg
      = acc.total_volume_kg
        + (ws.map (fun w =>
            (w.exercises.map (fun ex => (ex.sets.map setVolume).sum)).sum)).sum := by
  induction ws with
  | nil => intro acc; simp
  | cons w rest ih =>
    intro acc
    simp [List.foldl_cons, ih, stepWorkout, foldl_stepExercise_volume, add_assoc]

theorem setVolume_eq_spec (s : SetEntry) : setVolume s = specSetVolume s := by
  obtain ⟨kg, r⟩ := s
  cases kg <;> cases r <;> simp [setVolume, specSetVolume]

/-- C3: a set whose weight_kg or reps is absent contributes exactly 0 to
the total volume, and the aggregated total_volume_kg equals the
specification's sum, over all sets of all kept records, of weight times
reps with missing fields treated as 0. -/
theorem claim_C3 (ws : List Workout) (s : SetEntry)
    (h : s.weight_kg = none ∨ s.reps = none) :
    setVolume s = 0
    ∧ (aggregate ws).total_volume_kg = specTotalVolume ws := by
  constructor
  · rcases h with h | h
    · simp [setVolume, h]
    · simp [setVolume, h]
  · rw [aggregate, foldl_stepWorkout_volume, specTotalVolume]
    have hfun : setVolume = specSetVolume := funext setVolume_eq_spec
    rw [hfun]
    simp

theorem claim_C3_witness :
    ((SetEntry.mk none (some 5)).weight_kg = none ∨ (SetEntry.mk none (some 5)).reps = none)
    ∧ (setVolume (SetEntry.mk none (some 5)) = 0
      ∧ (aggregate [Workout.mk (some "A") (some "s")
          [ExerciseEntry.mk (some "Bench")
            [SetEntry.mk none (some 5), SetEntry.mk (some 80) (some 10)]]]).total_volume_kg
        = specTotalVolume [Workout.mk (some "A") (some "s")
          [ExerciseEntry.mk (some "Bench")
            [SetEntry.mk none (some 5), SetEntry.mk (some 80) (some 10)]]]) :=
  ⟨Or.inl rfl,
   claim_C3 [Workout.mk (some "A") (some "s")
      [ExerciseEntry.mk (some "Bench")
        [SetEntry.mk none (some 5), SetEntry.mk (some 80) (some 10)]]]
     (SetEntry.mk none (some 5)) (Or.inl rfl)⟩

theorem foldl_stepSet_counts (sets : List SetEntry) :
    ∀ acc : AggAcc, (sets.foldl stepSet acc).exercise_counts = acc.exercise_counts := by
  induction sets with
  | nil => intro acc; rfl
  | cons s rest ih => intro acc; simp [List.foldl_cons, ih, stepSet]

theorem stepExercise_counts (acc : AggAcc) (ex : ExerciseEntry) :
    (stepExercise acc ex).exercise_counts = dictIncr acc.exercise_counts (exTitle ex) := by
  simp [stepExercise, foldl_stepSet_counts]

theorem foldl_stepExercise_counts (exs : List ExerciseEntry) :
    ∀ acc : AggAcc, (exs.foldl stepExercise acc).exercise_counts
      = (exs.map exTitle).foldl dictIncr acc.exercise_counts := by
  induction exs with
  | nil => intro acc; rfl
  | cons ex rest ih =>
    intro acc
    simp [List.foldl_cons, ih, stepExercise_counts]

theorem foldl_stepWorkout_counts (ws : List Workout) :
    ∀ acc : AggAcc, (ws.foldl stepWorkout acc).exercise_counts
      = ((ws.map (fun w => w.exercises.map exTitle)).flatten).foldl
          dictIncr acc.exercise_counts := by
  induction ws with
  | nil => intro acc; rfl
  | cons w rest ih =>
    intro acc
    simp [List.foldl_cons, ih, stepWorkout, foldl_stepExercise_counts, List.foldl_append]

theorem aggregate_counts (ws : List Workout) :
    (aggregate ws).exercise_counts = (allTitles ws).foldl dictIncr [] := by
  rw [aggregate, foldl_stepWorkout_counts, allTitles]

theorem keysOf_dictIncr (k : String) :
    ∀ m : List (String × Nat),
      keysOf (dictIncr m k) = if k ∈ keysOf m then keysOf m else keysOf m ++ [k] := by
  intro m
  induction m with
  | nil => simp [dictIncr, keysOf]
  | cons kv rest ih =>
    obtain ⟨k', v⟩ := kv
    by_cases hk : k' = k
    · simp [dictIncr, hk, keysOf]
    · simp only [dictIncr, if_neg hk, keysOf, List.map_cons]
      simp only [keysOf] at ih
      by_cases hmem : k ∈ List.map Prod.fst rest
      · have ih' := ih
        rw [if_pos hmem] at ih'
        rw [if_pos (List.mem_cons_of_mem _ hmem), ih']
      · have ih' := ih
        rw [if_neg hmem] at ih'
        have hnm : ¬ k ∈ k' :: List.map Prod.fst rest := by
          simp [hmem, Ne.symm hk]
        rw [if_neg hnm, ih']
        simp

theorem lookupCount_dictIncr_self (k : String) :
    ∀ m : List (String × Nat), lookupCount (dictIncr m k) k = lookupCount m k + 1 := by
  intro m
  induction m with
  | nil => simp [dictIncr, lookupCount, List.find?]
  | cons kv rest ih =>
    obtain ⟨k', v⟩ := kv
    by_cases hk : k' = k
    · subst hk
      simp [dictIncr, lookupCount, List.find?]
    · simp only [dictIncr, if_neg hk]
      simp only [lookupCount, List.find?] at ih ⊢
      have : (k' == k) = false := beq_false_of_ne hk
      simp [this, ih]

theorem lookupCount_dictIncr_other (k t : String) (hne : t ≠ k) :
    ∀ m : List (String × Nat), lookupCount (dictIncr m k) t = lookupCount m t := by
  intro m
  induction m with
  | nil => simp [dictIncr, lookupCount, List.find?, beq_false_of_ne (Ne.symm hne)]
  | cons kv rest ih =>
    obtain ⟨k', v⟩ := kv
    by_cases hk : k' = k
    · subst hk
      simp [dictIncr, lookupCount, List.find?, beq_false_of_ne (fun h => hne h.symm)]
    · simp only [dictIncr, if_neg hk]
      by_cases ht : k' = t
      · subst ht
        simp [lookupCount, List.find?]
      · simp only [lookupCount, List.find?] at ih ⊢
        have : (k' == t) = false := beq_false_of_ne ht
        simp [this, ih]

theorem lookupCount_foldl_dictIncr (t : String) :
    ∀ (l : List String) (m : List (String × Nat)),
      lookupCount (l.foldl dictIncr m) t = lookupCount m t + l.count t := by
  intro l
  induction l with
  | nil => intro m; simp
  | cons a l ih =>
    intro m
    rw [List.foldl_cons, ih (dictIncr m a)]
    by_cases ha : a = t
    · subst ha
      rw [lookupCount_dictIncr_self]
      simp [List.count_cons]
      omega
    · rw [lookupCount_dictIncr_other a t (Ne.symm ha)]
      simp [List.count_cons, beq_false_of_ne (Ne.symm ha), ha]

theorem keysOf_foldl_dictIncr :
    ∀ (l : List String) (m : List (String × Nat)),
      keysOf (l.foldl dictIncr m)
        = l.foldl (fun acc t => if t ∈ acc then acc else acc ++ [t]) (keysOf m) := by
  intro l
  induction l with
  | nil => intro m; rfl
  | cons a l ih =>
    intro m
    rw [List.foldl_cons, ih (dictIncr m a), List.foldl_cons, keysOf_dictIncr]

theorem mem_insertByCountDesc (x z : String × Nat) :
    ∀ l : List (String × Nat), z ∈ insertByCountDesc x l ↔ z = x ∨ z ∈ l := by
  intro l
  induction l with
  | nil => simp [insertByCountDesc]
  | cons y ys ih =>
    by_cases hc : y.2 ≤ x.2
    · simp [insertByCountDesc, hc, or_comm, or_assoc, or_left_comm]
    · simp only [insertByCountDesc, if_neg hc, List.mem_cons, ih]
      tauto

theorem pairwise_insertByCountDesc (x : String × Nat) :
    ∀ l : List (String × Nat),
      List.Pairwise (fun a b => b.2 ≤ a.2) l →
      List.Pairwise (fun a b => b.2 ≤ a.2) (insertByCountDesc x l) := by
  intro l
  induction l with
  | nil => intro _; simp [insertByCountDesc]
  | cons y ys ih =>
    intro hp
    rw [List.pairwise_cons] at hp
    by_cases hc : y.2 ≤ x.2
    · rw [insertByCountDesc, if_pos hc, List.pairwise_cons]
      refine ⟨?_, List.pairwise_cons.mpr hp⟩
      intro z hz
      rcases List.mem_cons.mp hz with rfl | hz'
      · exact hc
      · exact le_trans (hp.1 z hz') hc
    · rw [insertByCountDesc, if_neg hc, List.pairwise_cons]
      refine ⟨?_, ih hp.2⟩
      intro z hz
      rcases (mem_insertByCountDesc x z ys).mp hz with rfl | hz'
      · exact le_of_not_le hc
      · exact hp.1 z hz'

theorem pairwise_sortByCountDesc (l : List (String × Nat)) :
    List.Pairwise (fun a b => b.2 ≤ a.2) (sortByCountDesc l) := by
  induction l with
  | nil => simp [sortByCountDesc]
  | cons x xs ih => exact pairwise_insertByCountDesc x (sortByCountDesc xs) ih

theorem filter_insertByCountDesc (c : Nat) (x : String × Nat) :
    ∀ l : List (String × Nat),
      (insertByCountDesc x l).filter (fun kv => kv.2 == c)
        = if x.2 = c then x :: l.filter (fun kv => kv.2 == c)
          else l.filter (fun kv => kv.2 == c) := by
  intro l
  induction l with
  | nil =>
    by_cases hx : x.2 = c <;>
      simp [insertByCountDesc, List.filter_cons, hx]
  | cons y ys ih =>
    by_cases hc : y.2 ≤ x.2
    · rw [insertByCountDesc, if_pos hc]
      by_cases hx : x.2 = c <;> simp [List.filter_cons, hx]
    · rw [insertByCountDesc, if_neg hc]
      have hlt : x.2 < y.2 := lt_of_not_le hc
      by_cases hx : x.2 = c
      · have hy : ¬ y.2 = c := by omega
        simp [List.filter_cons, hx, hy, ih]
      · by_cases hy : y.2 = c <;> simp [List.filter_cons, hx, hy, ih]

theorem filter_sortByCountDesc (c : Nat) (l : List (String × Nat)) :
    (sortByCountDesc l).filter (fun kv => kv.2 == c)
      = l.filter (fun kv => kv.2 == c) := by
  induction l with
  | nil => rfl
  | cons x xs ih =>
    rw [sortByCountDesc, filter_insertByCountDesc]
    by_cases hx : x.2 = c <;> simp [List.filter_cons, hx, ih]

/-- C4: the listing rendered by the most-frequent-exercises section — the
take-10 of the descending stable sort of exercise_counts — is sorted by
descending count; sorting preserves each equal-count class in map order
(stability), and the map order of keys is first-seen order of exercise
entry titles; the listing has at most 10 entries; and the count stored for
a title equals the number of exercise entries bearing it across the kept
records — one per entry, independent of the entries' sets. -/
theorem claim_C4 (ws : List Workout) (c : Nat) (t : String) :
    List.Pairwise (fun a b => b.2 ≤ a.2) (topExercises (aggregate ws).exercise_counts)
    ∧ (sortByCountDesc (aggregate ws).exercise_counts).filter (fun kv => kv.2 == c)
        = (aggregate ws).exercise_counts.filter (fun kv => kv.2 == c)
    ∧ keysOf (aggregate ws).exercise_counts = firstSeen (allTitles ws)
    ∧ (topExercises (aggregate ws).exercise_counts).length ≤ 10
    ∧ lookupCount (aggregate ws).exercise_counts t = (allTitles ws).count t := by
  refine ⟨?_, filter_sortByCountDesc c _, ?_, ?_, ?_⟩
  · exact (pairwise_sortByCountDesc _).sublist (List.take_sublist _ _)
  · rw [aggregate_counts, firstSeen, keysOf_foldl_dictIncr]
    rfl
  · exact List.length_take_le ..
  · rw [aggregate_counts, lookupCount_foldl_dictIncr]
    simp [lookupCount, List.find?]

theorem digitChar_ne_newline (m : Nat) : Nat.digitChar m ≠ '\n' := by
  rcases Nat.lt_or_ge m 16 with h | h
  · interval_cases m <;> decide
  · simp only [Nat.digitChar,
      show m ≠ 0 by omega, show m ≠ 1 by omega, show m ≠ 2 by omega,
      show m ≠ 3 by omega, show m ≠ 4 by omega, show m ≠ 5 by omega,
      show m ≠ 6 by omega, show m ≠ 7 by omega, show m ≠ 8 by omega,
      show m ≠ 9 by omega, show m ≠ 10 by omega, show m ≠ 11 by omega,
      show m ≠ 12 by omega, show m ≠ 13 by omega, show m ≠ 14 by omega,
      show m ≠ 15 by omega, if_false]
    decide

theorem toDigitsCore_ne_newline :
    ∀ (fuel n : Nat) (acc : List Char), (∀ c ∈ acc, c ≠ '\n') →
      ∀ c ∈ Nat.toDigitsCore 10 fuel n acc, c ≠ '\n' := by
  intro fuel
  induction fuel with
  | zero => intro n acc hacc; exact hacc
  | succ fuel ih =>
    intro n acc hacc c hc
    rw [Nat.toDigitsCore] at hc
    by_cases hz : n / 10 = 0
    · rw [if_pos hz] at hc
      rcases List.mem_cons.mp hc with rfl | hmem
      · exact digitChar_ne_newline _
      · exact hacc c hmem
    · rw [if_neg hz] at hc
      refine ih (n / 10) _ ?_ c hc
      intro d hd
      rcases List.mem_cons.mp hd with rfl | hmem
      · exact digitChar_ne_newline _
      · exact hacc d hmem

theorem repr_ne_newline (n : Nat) : '\n' ∉ (toString n).data := by
  intro hmem
  exact toDigitsCore_ne_newline (n + 1) n [] (by simp) '\n' hmem rfl

theorem noActivityMsg_single_line (days : Nat) : '\n' ∉ (noActivityMsg days).data := by
  rw [noActivityMsg, String.data_append, String.data_append]
  intro hmem
  rcases List.mem_append.mp hmem with hmem' | h3
  · rcases List.mem_append.mp hmem' with h1 | h2
    · exact absurd h1 (by decide)
    · exact repr_ne_newline days h2
  · exact absurd h3 (by decide)

/-- C5: whenever the scan keeps zero records, analyze_recent_workouts
returns exactly the single-line no-activity message naming the day count
(the message contains no newline, so none of the other summary sections —
header, per-workout listing, frequency listing — is rendered). -/
theorem claim_C5 (pages : Nat → Nat → List Workout) (fromiso : String → Option Int)
    (cutoff : Int) (days : Nat)
    (h : (analyzeScan pages fromiso cutoff).1 = []) :
    analyze_recent_workouts pages fromiso cutoff days = noActivityMsg days
    ∧ '\n' ∉ (noActivityMsg days).data := by
  refine ⟨?_, noActivityMsg_single_line days⟩
  rw [analyze_recent_workouts]
  simp [h]

theorem claim_C5_witness :
    ((analyzeScan (fun _ _ => []) (fun _ => none) 0).1 = [])
    ∧ (analyze_recent_workouts (fun _ _ => []) (fun _ => none) 0 7 = noActivityMsg 7
      ∧ '\n' ∉ (noActivityMsg 7).data) :=
  ⟨rfl, claim_C5 (fun _ _ => []) (fun _ => none) 0 7 rfl⟩

/-- C6 counterexample: with every environment variable absent, the Strava
adapter's tool call does not fail fast — it constructs the client and
proceeds straight to the network call carrying a missing (None) token, and
no configuration error is raised. This refutes the claim's universal
quantification over adapters. -/
theorem claim_C6_counterexample :
    ((fun _ => none) : String → Option String) "STRAVA_ACCESS_TOKEN" = none
    ∧ strava_tool_first_step (fun _ => none) = .networkCall [none]
    ∧ ∀ msg, strava_tool_first_step (fun _ => none) ≠ .configError msg :=
  ⟨rfl, rfl, fun _ h => ToolStep.noConfusion h⟩

/-- C6 amended: the Hevy adapter fails fast with its descriptive error
before any network call whenever HEVY_API_KEY is absent or empty; the
Strava and Garmin adapters perform no credential check at all — for every
environment they proceed directly to the network call, passing the
possibly-missing credential values through. -/
theorem claim_C6_amended (env : String → Option String)
    (h : (env "HEVY_API_KEY").getD "" = "") :
    hevy_tool_first_step env = .configError
        "HEVY_API_KEY environment variable is not set. Get your key at https://hevy.com/settings?developer"
    ∧ (∀ env2 : String → Option String,
        strava_tool_first_step env2 = .networkCall [env2 "STRAVA_ACCESS_TOKEN"])
    ∧ (∀ env3 : String → Option String,
        garmin_tool_first_step env3 = .networkCall [env3 "GARMIN_EMAIL", env3 "GARMIN_PASSWORD"]) := by
  refine ⟨?_, fun _ => rfl, fun _ => rfl⟩
  rw [hevy_tool_first_step, get_client]
  simp [h]

theorem claim_C6_amended_witness :
    ((((fun _ => none) : String → Option String) "HEVY_API_KEY").getD "" = "")
    ∧ (hevy_tool_first_step (fun _ => none) = .configError
        "HEVY_API_KEY environment variable is not set. Get your key at https://hevy.com/settings?developer"
      ∧ (∀ env2 : String → Option String,
          strava_tool_first_step env2 = .networkCall [env2 "STRAVA_ACCESS_TOKEN"])
      ∧ (∀ env3 : String → Option String,
          garmin_tool_first_step env3 = .networkCall [env3 "GARMIN_EMAIL", env3 "GARMIN_PASSWORD"])) :=
  ⟨rfl, claim_C6_amended (fun _ => none) rfl⟩

/-- C8: every API-client verb turns a non-2xx response into the error
carrying that response's HTTP status and body; and a DELETE whose 2xx
response has an empty body returns the canonical success-true marker
without attempting to parse the empty body as JSON. -/
theorem claim_C8 :
    (∀ resp : HttpResponse, is2xx resp = false →
      api_get resp = .apiError resp.status resp.body
      ∧ api_post resp = .apiError resp.status resp.body
      ∧ api_put resp = .apiError resp.status resp.body
      ∧ api_delete resp = .apiError resp.status resp.body)
    ∧ (∀ resp : HttpResponse, is2xx resp = true → resp.body = "" →
        api_delete resp = .ok successMarker) := by
  constructor
  · intro resp h
    refine ⟨?_, ?_, ?_, ?_⟩ <;> simp [api_get, api_post, api_put, api_delete, h]
  · intro resp h hb
    simp [api_delete, h, hb]

theorem claim_C8_witness :
    (is2xx ⟨404, "missing"⟩ = false
      ∧ api_get ⟨404, "missing"⟩ = .apiError 404 "missing"
      ∧ api_post ⟨404, "missing"⟩ = .apiError 404 "missing"
      ∧ api_put ⟨404, "missing"⟩ = .apiError 404 "missing"
      ∧ api_delete ⟨404, "missing"⟩ = .apiError 404 "missing")
    ∧ (is2xx ⟨204, ""⟩ = true ∧ api_delete ⟨204, ""⟩ = .ok successMarker) :=
  ⟨⟨by decide, claim_C8.1 ⟨404, "missing"⟩ (by decide)⟩,
   ⟨by decide, claim_C8.2 ⟨204, ""⟩ (by decide) rfl⟩⟩

theorem natDigitsCore_append :
    ∀ (n fuel : Nat) (acc : List Char), n < fuel →
      natDigitsCore fuel n acc = natDigits n ++ acc := by
  intro n
  induction n using Nat.strongRecOn with
  | _ n ih =>
    intro fuel acc hf
    match fuel, hf with
    | fuel + 1, hf =>
      by_cases h10 : n < 10
      · rw [natDigitsCore, if_pos h10, natDigits, natDigitsCore, if_pos h10]
        rfl
      · rw [natDigitsCore, if_neg h10, natDigits, natDigitsCore, if_neg h10]
        rw [ih (n / 10) (by omega) fuel _ (by omega),
            ih (n / 10) (by omega) n _ (by omega)]
        simp

theorem natDigits_unfold (n : Nat) :
    natDigits n = (if n < 10 then [] else natDigits (n / 10))
      ++ [Char.ofNat ('0'.toNat + n % 10)] := by
  by_cases h10 : n < 10
  · rw [natDigits, natDigitsCore, if_pos h10, if_pos h10]
    rfl
  · rw [natDigits, natDigitsCore, if_neg h10, if_neg h10,
        natDigitsCore_append (n / 10) n _ (by omega)]

theorem natDigits_ne_nil (n : Nat) : natDigits n ≠ [] := by
  rw [natDigits_unfold]
  simp

theorem digit_char_spec (k : Nat) (hk : k < 10) :
    isDigitChar (Char.ofNat ('0'.toNat + k)) = true
    ∧ (Char.ofNat ('0'.toNat + k)).toNat - 48 = k := by
  interval_cases k <;> exact ⟨by decide, by decide⟩

theorem natDigits_all_digits (n : Nat) :
    ∀ c ∈ natDigits n, isDigitChar c = true := by
  induction n using Nat.strongRecOn with
  | _ n ih =>
    rw [natDigits_unfold]
    intro c hc
    rcases List.mem_append.mp hc with h | h
    · by_cases h10 : n < 10
      · rw [if_pos h10] at h
        exact absurd h (List.not_mem_nil c)
      · rw [if_neg h10] at h
        exact ih (n / 10) (by omega) c h
    · rw [List.mem_singleton] at h
      subst h
      exact (digit_char_spec (n % 10) (by omega)).1

theorem foldl_digits_init (ds : List Char) :
    ∀ a : Nat, ds.foldl (fun acc c => 10 * acc + (c.toNat - 48)) a
      = a * 10 ^ ds.length + digitsValue ds := by
  induction ds with
  | nil => intro a; simp [digitsValue]
  | cons c cs ih =>
    intro a
    simp only [List.foldl_cons, List.length_cons, digitsValue] at ih ⊢
    rw [ih (10 * a + (c.toNat - 48)), ih (10 * 0 + (c.toNat - 48))]
    ring

theorem digitsValue_append (ds1 ds2 : List Char) :
    digitsValue (ds1 ++ ds2)
      = digitsValue ds1 * 10 ^ ds2.length + digitsValue ds2 := by
  rw [digitsValue, List.foldl_append]
  exact foldl_digits_init ds2 _

theorem digitsValue_natDigits (n : Nat) : digitsValue (natDigits n) = n := by
  induction n using Nat.strongRecOn with
  | _ n ih =>
    rw [natDigits_unfold]
    by_cases h10 : n < 10
    · rw [if_pos h10]
      simp only [List.nil_append, digitsValue, List.foldl_cons, List.foldl_nil]
      rw [(digit_char_spec (n % 10) (by omega)).2]
      omega
    · rw [if_neg h10, digitsValue_append, ih (n / 10) (by omega)]
      simp only [List.length_cons, List.length_nil, digitsValue, List.foldl_cons,
        List.foldl_nil]
      rw [(digit_char_spec (n % 10) (by omega)).2]
      simp only [pow_succ, pow_zero, one_mul]
      omega

theorem spanDigits_delim {cs : List Char} (h : numDelim cs = true) :
    spanDigits cs = ([], cs) := by
  match cs with
  | [] => rfl
  | c :: t =>
    simp only [numDelim, Bool.not_eq_true', Bool.or_eq_false_iff] at h
    rw [spanDigits, if_neg (by simp [h.1])]

theorem spanDigits_run (ds : List Char) (hds : ∀ c ∈ ds, isDigitChar c = true)
    (rest : List Char) (hrest : spanDigits rest = ([], rest)) :
    spanDigits (ds ++ rest) = (ds, rest) := by
  induction ds with
  | nil => simpa using hrest
  | cons c t ih =>
    have hc := hds c (List.mem_cons_self ..)
    have ht := ih (fun x hx => hds x (List.mem_cons_of_mem _ hx))
    simp [spanDigits, hc, ht]

theorem natDigits_length_le (w : Nat) (hw : 1 ≤ w) :
    ∀ n : Nat, n < 10 ^ w → (natDigits n).length ≤ w := by
  induction w with
  | zero => omega
  | succ w ih =>
    intro n hn
    rw [natDigits_unfold]
    by_cases h10 : n < 10
    · simp [h10]
    · rw [List.length_append]
      have hw1 : 1 ≤ w := by
        by_contra hlt
        have : w = 0 := by omega
        subst this
        simp at hn
        omega
      have := ih hw1 (n / 10) (by
        have : 10 ^ (w + 1) = 10 ^ w * 10 := by ring
        omega)
      simp only [if_neg h10, List.length_singleton]
      omega

theorem padDigits_all_digits (w n : Nat) :
    ∀ c ∈ padDigits w n, isDigitChar c = true := by
  intro c hc
  rcases List.mem_append.mp hc with h | h
  · rw [List.eq_of_mem_replicate h]
    decide
  · exact natDigits_all_digits n c h

theorem digitsValue_replicate_zero (k : Nat) :
    ∀ ds : List Char, digitsValue (List.replicate k '0' ++ ds) = digitsValue ds := by
  induction k with
  | zero => intro ds; rfl
  | succ k ih =>
    intro ds
    rw [List.replicate_succ, List.cons_append]
    show digitsValue (List.replicate k '0' ++ ds)
      = digitsValue ds
    exact ih ds

theorem padDigits_value (w n : Nat) : digitsValue (padDigits w n) = n := by
  rw [padDigits, digitsValue_replicate_zero, digitsValue_natDigits]

theorem padDigits_length (w n : Nat) (hw : 1 ≤ w) (hn : n < 10 ^ w) :
    (padDigits w n).length = w := by
  rw [padDigits, List.length_append, List.length_replicate]
  have := natDigits_length_le w hw n hn
  omega

theorem natDigits_head (n : Nat) :
    ∃ c t, natDigits n = c :: t ∧ isDigitChar c = true := by
  match h : natDigits n with
  | [] => exact absurd h (natDigits_ne_nil n)
  | c :: t =>
    refine ⟨c, t, rfl, natDigits_all_digits n c ?_⟩
    rw [h]
    exact List.mem_cons_self ..

theorem digit_not_number_punct {c : Char} (h : isDigitChar c = true) :
    c ≠ '-' ∧ c ≠ '.' := by
  refine ⟨fun he => ?_, fun he => ?_⟩
  · subst he
    exact absurd h (by decide)
  · subst he
    exact absurd h (by decide)

theorem parseNumber_int (i : Int) (rest : List Char) (hr : numDelim rest = true) :
    parseNumber (intChars i ++ rest) = some (.int i, rest) := by
  have hspan := spanDigits_run (natDigits i.natAbs) (natDigits_all_digits _)
    rest (spanDigits_delim hr)
  by_cases hm : i < 0
  · have harg : intChars i ++ rest = '-' :: (natDigits i.natAbs ++ rest) := by
      simp [intChars, hm]
    rw [harg, parseNumber]
    simp only [hspan]
    rw [if_neg (by simp [natDigits_ne_nil])]
    have habs : ((i.natAbs : Nat) : Int) = -i := Int.ofNat_natAbs_of_nonpos (by omega)
    cases rest with
    | nil => simp [digitsValue_natDigits, habs]
    | cons c t =>
      have hc : ¬ c = '.' := by
        intro h
        rw [h] at hr
        simp [numDelim] at hr
      simp [hc, digitsValue_natDigits, habs]
  · obtain ⟨c0, t0, h0, hc0⟩ := natDigits_head i.natAbs
    obtain ⟨hcm, _⟩ := digit_not_number_punct hc0
    have harg : intChars i ++ rest = c0 :: (t0 ++ rest) := by
      simp [intChars, hm, h0]
    rw [harg, parseNumber]
    · have hrw : c0 :: (t0 ++ rest) = natDigits i.natAbs ++ rest := by
        rw [h0, List.cons_append]
      rw [hrw]
      simp only [hspan]
      rw [if_neg (by simp [natDigits_ne_nil])]
      have habs : ((i.natAbs : Nat) : Int) = i := Int.natAbs_of_nonneg (by omega)
      cases rest with
      | nil => simp [digitsValue_natDigits, habs]
      | cons c t =>
        have hc : ¬ c = '.' := by
          intro h
          rw [h] at hr
          simp [numDelim] at hr
        simp [hc, digitsValue_natDigits, habs]
    · intro r hcontra
      injection hcontra with h1 _
      exact hcm h1

theorem spanDigits_dot (l : List Char) : spanDigits ('.' :: l) = ([], '.' :: l) := by
  rw [spanDigits, if_neg (by decide)]

theorem parseNumber_dec (m : Int) (e : Nat) (rest : List Char)
    (hr : numDelim rest = true) :
    parseNumber (decChars m e ++ rest) = some (.dec m e, rest) := by
  have hpow : 0 < 10 ^ (e + 1) := Nat.pos_pow_of_pos _ (by omega)
  have hfp : m.natAbs % 10 ^ (e + 1) < 10 ^ (e + 1) := Nat.mod_lt _ hpow
  have hplen : (padDigits (e + 1) (m.natAbs % 10 ^ (e + 1))).length = e + 1 :=
    padDigits_length _ _ (by omega) hfp
  have hpne : padDigits (e + 1) (m.natAbs % 10 ^ (e + 1)) ≠ [] := by
    intro h
    rw [h] at hplen
    simp at hplen
  have hpspan : spanDigits (padDigits (e + 1) (m.natAbs % 10 ^ (e + 1)) ++ rest)
      = (padDigits (e + 1) (m.natAbs % 10 ^ (e + 1)), rest) :=
    spanDigits_run _ (padDigits_all_digits _ _) rest (spanDigits_delim hr)
  have hipspan : spanDigits (natDigits (m.natAbs / 10 ^ (e + 1))
        ++ ('.' :: (padDigits (e + 1) (m.natAbs % 10 ^ (e + 1)) ++ rest)))
      = (natDigits (m.natAbs / 10 ^ (e + 1)),
         '.' :: (padDigits (e + 1) (m.natAbs % 10 ^ (e + 1)) ++ rest)) :=
    spanDigits_run _ (natDigits_all_digits _) _ (spanDigits_dot _)
  have hmag : digitsValue (natDigits (m.natAbs / 10 ^ (e + 1)))
        * 10 ^ (padDigits (e + 1) (m.natAbs % 10 ^ (e + 1))).length
        + digitsValue (padDigits (e + 1) (m.natAbs % 10 ^ (e + 1)))
      = m.natAbs := by
    rw [digitsValue_natDigits, padDigits_value, hplen, Nat.mul_comm]
    exact Nat.div_add_mod _ _
  rw [hplen] at hmag
  by_cases hm : m < 0
  · have habs : ((m.natAbs : Nat) : Int) = -m := Int.ofNat_natAbs_of_nonpos (by omega)
    have harg : decChars m e ++ rest
        = '-' :: (natDigits (m.natAbs / 10 ^ (e + 1))
            ++ ('.' :: (padDigits (e + 1) (m.natAbs % 10 ^ (e + 1)) ++ rest))) := by
      simp [decChars, hm]
    rw [harg, parseNumber]
    simp only [hipspan]
    rw [if_neg (by simp [natDigits_ne_nil])]
    simp only [hpspan]
    rw [if_neg (by simpa using hpne)]
    simp only [hplen, Nat.add_sub_cancel, hmag, habs, neg_neg]
    simp
  · have habs : ((m.natAbs : Nat) : Int) = m := Int.natAbs_of_nonneg (by omega)
    obtain ⟨c0, t0, h0, hc0⟩ := natDigits_head (m.natAbs / 10 ^ (e + 1))
    obtain ⟨hcm, _⟩ := digit_not_number_punct hc0
    have harg : decChars m e ++ rest
        = c0 :: (t0 ++ ('.' :: (padDigits (e + 1) (m.natAbs % 10 ^ (e + 1)) ++ rest))) := by
      simp [decChars, hm, h0]
    rw [harg, parseNumber]
    · have hrw : c0 :: (t0 ++ ('.' :: (padDigits (e + 1) (m.natAbs % 10 ^ (e + 1)) ++ rest)))
          = natDigits (m.natAbs / 10 ^ (e + 1))
            ++ ('.' :: (padDigits (e + 1) (m.natAbs % 10 ^ (e + 1)) ++ rest)) := by
        rw [h0, List.cons_append]
      rw [hrw]
      simp only [hipspan]
      rw [if_neg (by simp [natDigits_ne_nil])]
      simp only [hpspan]
      rw [if_neg (by simpa using hpne)]
      simp only [hplen, Nat.add_sub_cancel, hmag, habs]
      simp
    · intro r hcontra
      injection hcontra with h1 _
      exact hcm h1

theorem char_toNat_valid (c : Char) :
    c.toNat < 0xd800 ∨ (0xdfff < c.toNat ∧ c.toNat < 0x110000) := c.valid

theorem hexDigitChar_value (d : Nat) (h : d < 16) :
    hexDigitValue (hexDigitChar d) = some d := by
  interval_cases d <;> decide

theorem hexQuad_uEscape (n : Nat) (h : n < 0x10000) :
    hexQuad (hexDigitChar (n / 4096 % 16)) (hexDigitChar (n / 256 % 16))
      (hexDigitChar (n / 16 % 16)) (hexDigitChar (n % 16)) = some n := by
  rw [hexQuad, hexDigitChar_value _ (Nat.mod_lt _ (by omega)),
      hexDigitChar_value _ (Nat.mod_lt _ (by omega)),
      hexDigitChar_value _ (Nat.mod_lt _ (by omega)),
      hexDigitChar_value _ (Nat.mod_lt _ (by omega))]
  show some _ = some n
  congr 1
  omega

set_option maxHeartbeats 1000000 in
theorem parseStringBody_uEscape_plain (m : Nat) (hlt : m < 0x10000)
    (hhi : ¬ (0xd800 ≤ m ∧ m < 0xdc00)) (hlo : ¬ (0xdc00 ≤ m ∧ m < 0xe000))
    (acc rest : List Char) :
    parseStringBody acc (uEscape m ++ rest) = parseStringBody (Char.ofNat m :: acc) rest := by
  rw [uEscape]
  show parseStringBody acc
    ('\\' :: 'u' :: hexDigitChar (m / 4096 % 16) :: hexDigitChar (m / 256 % 16)
      :: hexDigitChar (m / 16 % 16) :: hexDigitChar (m % 16) :: rest)
    = parseStringBody (Char.ofNat m :: acc) rest
  rw [parseStringBody, hexQuad_uEscape m hlt]
  simp only []
  rw [if_neg hhi, if_neg hlo]

set_option maxHeartbeats 1000000 in
set_option maxRecDepth 4000 in
theorem parseStringBody_uEscape_pair (n : Nat) (h1 : 0x10000 ≤ n) (h2 : n < 0x110000)
    (acc rest : List Char) :
    parseStringBody acc
      (uEscape (0xd800 + (n - 0x10000) / 0x400)
        ++ (uEscape (0xdc00 + (n - 0x10000) % 0x400) ++ rest))
      = parseStringBody (Char.ofNat n :: acc) rest := by
  have hdiv : (n - 0x10000) / 0x400 < 0x400 := by omega
  have hmod : (n - 0x10000) % 0x400 < 0x400 := Nat.mod_lt _ (by omega)
  rw [uEscape, uEscape]
  simp only [List.cons_append, List.nil_append]
  rw [parseStringBody, hexQuad_uEscape _ (by omega)]
  try simp only []
  rw [if_pos (⟨by omega, by omega⟩ : 0xd800 ≤ 0xd800 + (n - 0x10000) / 0x400
    ∧ 0xd800 + (n - 0x10000) / 0x400 < 0xdc00)]
  try simp only []
  rw [hexQuad_uEscape _ (by omega)]
  try simp only []
  rw [if_pos (⟨by omega, by omega⟩ : 0xdc00 ≤ 0xdc00 + (n - 0x10000) % 0x400
    ∧ 0xdc00 + (n - 0x10000) % 0x400 < 0xe000)]
  exact congrArg (fun c => parseStringBody (c :: acc) rest)
    (congrArg Char.ofNat (by omega))

set_option maxHeartbeats 1000000 in
theorem parseStringBody_escape (c : Char) (acc rest : List Char) :
    parseStringBody acc (escapeChar c ++ rest) = parseStringBody (c :: acc) rest := by
  by_cases hc1 : c = '"'
  · subst hc1; rfl
  by_cases hc2 : c = '\\'
  · subst hc2; rfl
  by_cases hc3 : c = '\n'
  · subst hc3; rfl
  by_cases hc4 : c = '\r'
  · subst hc4; rfl
  by_cases hc5 : c = '\t'
  · subst hc5; rfl
  by_cases hc6 : c.toNat = 8
  · have hce : c = Char.ofNat 8 := by rw [← Char.ofNat_toNat c, hc6]
    subst hce; rfl
  by_cases hc7 : c.toNat = 12
  · have hce : c = Char.ofNat 12 := by rw [← Char.ofNat_toNat c, hc7]
    subst hce; rfl
  by_cases hc8 : c.toNat < 0x20
  · rw [escapeChar, if_neg hc1, if_neg hc2, if_neg hc3, if_neg hc4, if_neg hc5,
        if_neg hc6, if_neg hc7, if_pos hc8,
        parseStringBody_uEscape_plain c.toNat (by omega) (by omega) (by omega),
        Char.ofNat_toNat]
  by_cases hc9 : c.toNat < 0x7f
  · rw [escapeChar, if_neg hc1, if_neg hc2, if_neg hc3, if_neg hc4, if_neg hc5,
        if_neg hc6, if_neg hc7, if_neg hc8, if_pos hc9, List.cons_append,
        List.nil_append, parseStringBody]
    all_goals intros
    all_goals simp_all
  by_cases hc10 : c.toNat < 0x10000
  · have hval := char_toNat_valid c
    rw [escapeChar, if_neg hc1, if_neg hc2, if_neg hc3, if_neg hc4, if_neg hc5,
        if_neg hc6, if_neg hc7, if_neg hc8, if_neg hc9, if_pos hc10,
        parseStringBody_uEscape_plain c.toNat (by omega) (by omega) (by omega),
        Char.ofNat_toNat]
  · have hval := char_toNat_valid c
    rw [escapeChar, if_neg hc1, if_neg hc2, if_neg hc3, if_neg hc4, if_neg hc5,
        if_neg hc6, if_neg hc7, if_neg hc8, if_neg hc9, if_neg hc10,
        List.append_assoc,
        parseStringBody_uEscape_pair c.toNat (by omega) (by omega),
        Char.ofNat_toNat]

theorem parseStringBody_escapeString (s : List Char) :
    ∀ acc rest : List Char,
      parseStringBody acc (escapeString s ++ '"' :: rest)
        = some (acc.reverse ++ s, rest) := by
  induction s with
  | nil =>
    intro acc rest
    simp [escapeString, parseStringBody]
  | cons c cs ih =>
    intro acc rest
    rw [escapeString, List.append_assoc, parseStringBody_escape, ih]
    simp

theorem skipWs_ws_prefix (w : List Char) (hw : ∀ c ∈ w, isWsChar c = true) :
    ∀ x : List Char, skipWs (w ++ x) = skipWs x := by
  induction w with
  | nil => intro x; rfl
  | cons c cs ih =>
    intro x
    rw [List.cons_append, skipWs, if_pos (hw c (List.mem_cons_self ..))]
    exact ih (fun d hd => hw d (List.mem_cons_of_mem _ hd)) x

theorem jIndent_ws (lvl : Nat) : ∀ c ∈ jIndent lvl, isWsChar c = true := by
  intro c hc
  rw [List.eq_of_mem_replicate hc]
  decide

theorem skipWs_newline_indent (lvl : Nat) (x : List Char) :
    skipWs ('\n' :: (jIndent lvl ++ x)) = skipWs x := by
  rw [skipWs, if_pos (by decide)]
  exact skipWs_ws_prefix (jIndent lvl) (jIndent_ws lvl) x

theorem skipWs_not_ws {c : Char} (h : isWsChar c = false) (t : List Char) :
    skipWs (c :: t) = c :: t := by
  rw [skipWs, if_neg (by simp [h])]

theorem digit_head_facts {c : Char} (h : isDigitChar c = true) :
    isWsChar c = false ∧ c ≠ 'n' ∧ c ≠ 't' ∧ c ≠ 'f' ∧ c ≠ '"' ∧ c ≠ '['
      ∧ c ≠ '{' ∧ c ≠ ']' ∧ c ≠ '}' := by
  refine ⟨?_, fun he => ?_, fun he => ?_, fun he => ?_, fun he => ?_, fun he => ?_,
    fun he => ?_, fun he => ?_, fun he => ?_⟩
  · have hb : 48 ≤ c.toNat ∧ c.toNat ≤ 57 := by
      simpa [isDigitChar] using h
    simp only [isWsChar, Bool.or_eq_false_iff, decide_eq_false_iff_not]
    omega
  all_goals (subst he; exact absurd h (by decide))

/-- The first character of a printed value: never whitespace, never a
closing bracket or brace (so the scanner that peeks for an empty array or
object is not fooled), and for arrays and objects the respective opener. -/
theorem printValue_head (lvl : Nat) (v : Json) :
    ∃ c t, printValue lvl v = c :: t ∧ isWsChar c = false ∧ c ≠ ']' ∧ c ≠ '}' := by
  cases v with
  | str s =>
    refine ⟨'"', escapeString s ++ ['"'], rfl, ?_, ?_, ?_⟩ <;> decide
  | null =>
    refine ⟨'n', ['u', 'l', 'l'], rfl, ?_, ?_, ?_⟩ <;> decide
  | bool b =>
    cases b with
    | false => refine ⟨'f', ['a', 'l', 's', 'e'], rfl, ?_, ?_, ?_⟩ <;> decide
    | true => refine ⟨'t', ['r', 'u', 'e'], rfl, ?_, ?_, ?_⟩ <;> decide
  | arr es =>
    cases es with
    | nil => refine ⟨'[', [']'], rfl, ?_, ?_, ?_⟩ <;> decide
    | cons x xs => refine ⟨'[', _, rfl, ?_, ?_, ?_⟩ <;> decide
  | obj ms =>
    cases ms with
    | nil => refine ⟨'{', ['}'], rfl, ?_, ?_, ?_⟩ <;> decide
    | cons kv ms => refine ⟨'{', _, rfl, ?_, ?_, ?_⟩ <;> decide
  | int n =>
    by_cases hm : n < 0
    · refine ⟨'-', natDigits n.natAbs, by simp [printValue, intChars, hm], ?_, ?_, ?_⟩
        <;> decide
    · obtain ⟨c0, t0, h0, hc0⟩ := natDigits_head n.natAbs
      obtain ⟨hws, _, _, _, _, _, _, hbr, hbc⟩ := digit_head_facts hc0
      exact ⟨c0, t0, by simp [printValue, intChars, hm, h0], hws, hbr, hbc⟩
  | dec m e =>
    by_cases hm : m < 0
    · refine ⟨'-', natDigits (m.natAbs / 10 ^ (e + 1))
          ++ '.' :: padDigits (e + 1) (m.natAbs % 10 ^ (e + 1)),
          by simp [printValue, decChars, hm], ?_, ?_, ?_⟩ <;> decide
    · obtain ⟨c0, t0, h0, hc0⟩ := natDigits_head (m.natAbs / 10 ^ (e + 1))
      obtain ⟨hws, _, _, _, _, _, _, hbr, hbc⟩ := digit_head_facts hc0
      exact ⟨c0, t0 ++ ('.' :: padDigits (e + 1) (m.natAbs % 10 ^ (e + 1))),
        by simp [printValue, decChars, hm, h0], hws, hbr, hbc⟩

theorem skipWs_printValue (lvl : Nat) (v : Json) (x : List Char) :
    skipWs (printValue lvl v ++ x) = printValue lvl v ++ x := by
  obtain ⟨c, t, hp, hws, _, _⟩ := printValue_head lvl v
  rw [hp, List.cons_append, skipWs_not_ws hws]

theorem parseValue_ws (fuel : Nat) (w cs : List Char)
    (hw : ∀ c ∈ w, isWsChar c = true) :
    parseValue fuel (w ++ cs) = parseValue fuel cs := by
  cases fuel with
  | zero => rfl
  | succ f => rw [parseValue, parseValue, skipWs_ws_prefix w hw]

theorem parseItems_ws (fuel : Nat) (w cs : List Char)
    (hw : ∀ c ∈ w, isWsChar c = true) :
    parseItems fuel (w ++ cs) = parseItems fuel cs := by
  cases fuel with
  | zero => rfl
  | succ f => rw [parseItems, parseItems, parseValue_ws f w cs hw]

theorem parseMembers_ws (fuel : Nat) (w cs : List Char)
    (hw : ∀ c ∈ w, isWsChar c = true) :
    parseMembers fuel (w ++ cs) = parseMembers fuel cs := by
  cases fuel with
  | zero => rfl
  | succ f => rw [parseMembers, parseMembers, skipWs_ws_prefix w hw]

set_option maxHeartbeats 1000000 in
theorem parseValue_to_parseNumber (f : Nat) (c0 : Char) (t : List Char)
    (hnum : (c0 == '-' || isDigitChar c0) = true)
    (hws : isWsChar c0 = false)
    (hks : c0 ∉ ['n', 't', 'f', '"', '[', '{']) :
    parseValue (f + 1) (c0 :: t) = parseNumber (c0 :: t) := by
  simp only [List.mem_cons, List.mem_singleton, not_or] at hks
  obtain ⟨k1, k2, k3, k4, k5, k6⟩ := hks
  rw [parseValue, skipWs_not_ws hws]
  simp [k1, k2, k3, k4, k5, k6, hnum]

set_option maxHeartbeats 1000000 in
theorem parseValue_arr_branch (f : Nat) (r : List Char) :
    parseValue (f + 1) ('[' :: r)
      = (match skipWs r with
         | ']' :: r2 => some (.arr [], r2)
         | r2 =>
           match parseItems f r2 with
           | some er => some (.arr er.1, er.2)
           | none => none) := by
  rw [parseValue, skipWs_not_ws (by decide)]
  simp

set_option maxHeartbeats 1000000 in
theorem parseValue_obj_branch (f : Nat) (r : List Char) :
    parseValue (f + 1) ('{' :: r)
      = (match skipWs r with
         | '}' :: r2 => some (.obj [], r2)
         | r2 =>
           match parseMembers f r2 with
           | some mr => some (.obj mr.1, mr.2)
           | none => none) := by
  rw [parseValue, skipWs_not_ws (by decide)]
  simp

theorem printItems_head (lvl : Nat) (x : Json) (xs : List Json) :
    ∃ c t, printItems lvl (x :: xs) = c :: t ∧ isWsChar c = false
      ∧ c ≠ ']' ∧ c ≠ '}' := by
  obtain ⟨c, t, hp, hws, hbr, hbc⟩ := printValue_head lvl x
  cases xs with
  | nil => exact ⟨c, t, by rw [printItems, hp], hws, hbr, hbc⟩
  | cons y ys =>
    refine ⟨c, t ++ (',' :: '\n' :: (jIndent lvl ++ printItems lvl (y :: ys))),
      ?_, hws, hbr, hbc⟩
    rw [printItems, hp, List.cons_append]

theorem printMembers_head (lvl : Nat) (kv : List Char × Json)
    (ms : List (List Char × Json)) :
    ∃ t, printMembers lvl (kv :: ms) = '"' :: t := by
  obtain ⟨k, v⟩ := kv
  cases ms with
  | nil => exact ⟨_, rfl⟩
  | cons m2 ms2 => exact ⟨_, rfl⟩

mutual
/-- Parsing a printed value consumes exactly the printed characters and
recovers the value, whenever the remainder cannot extend a number and the
fuel exceeds the printed length. -/
theorem rt_val : ∀ (v : Json) (lvl fuel : Nat) (rest : List Char),
    (printValue lvl v).length < fuel → numDelim rest = true →
    parseValue fuel (printValue lvl v ++ rest) = some (v, rest)
  | .null, lvl, fuel, rest, hf, _ => by
    cases fuel with
    | zero => simp [printValue] at hf
    | succ f => simp [printValue, parseValue, skipWs, isWsChar]
  | .bool b, lvl, fuel, rest, hf, _ => by
    cases fuel with
    | zero => cases b <;> simp [printValue] at hf
    | succ f => cases b <;> simp [printValue, parseValue, skipWs, isWsChar]
  | .int n, lvl, fuel, rest, hf, hr => by
    cases fuel with
    | zero => exact absurd hf (Nat.not_lt_zero _)
    | succ f =>
      by_cases hm : n < 0
      · have harg : printValue lvl (.int n) ++ rest
            = '-' :: (natDigits n.natAbs ++ rest) := by
          simp [printValue, intChars, hm]
        rw [harg, parseValue_to_parseNumber f '-' _ (by decide) (by decide) (by decide),
            ← harg]
        show parseNumber (intChars n ++ rest) = some (Json.int n, rest)
        exact parseNumber_int n rest hr
      · obtain ⟨c0, t0, h0, hc0⟩ := natDigits_head n.natAbs
        obtain ⟨hws, hn, ht, hfc, hq, hbk, hbc, _, _⟩ := digit_head_facts hc0
        have harg : printValue lvl (.int n) ++ rest = c0 :: (t0 ++ rest) := by
          simp [printValue, intChars, hm, h0]
        rw [harg, parseValue_to_parseNumber f c0 _ (by simp [hc0]) hws
            (by simp [hn, ht, hfc, hq, hbk, hbc]), ← harg]
        show parseNumber (intChars n ++ rest) = some (Json.int n, rest)
        exact parseNumber_int n rest hr
  | .dec m e, lvl, fuel, rest, hf, hr => by
    cases fuel with
    | zero => exact absurd hf (Nat.not_lt_zero _)
    | succ f =>
      by_cases hm : m < 0
      · have harg : printValue lvl (.dec m e) ++ rest
            = '-' :: ((natDigits (m.natAbs / 10 ^ (e + 1))
                ++ '.' :: padDigits (e + 1) (m.natAbs % 10 ^ (e + 1))) ++ rest) := by
          simp [printValue, decChars, hm]
        rw [harg, parseValue_to_parseNumber f '-' _ (by decide) (by decide) (by decide),
            ← harg]
        show parseNumber (decChars m e ++ rest) = some (Json.dec m e, rest)
        exact parseNumber_dec m e rest hr
      · obtain ⟨c0, t0, h0, hc0⟩ := natDigits_head (m.natAbs / 10 ^ (e + 1))
        obtain ⟨hws, hn, ht, hfc, hq, hbk, hbc, _, _⟩ := digit_head_facts hc0
        have harg : printValue lvl (.dec m e) ++ rest
            = c0 :: ((t0 ++ '.' :: padDigits (e + 1) (m.natAbs % 10 ^ (e + 1))) ++ rest) := by
          simp [printValue, decChars, hm, h0]
        rw [harg, parseValue_to_parseNumber f c0 _ (by simp [hc0]) hws
            (by simp [hn, ht, hfc, hq, hbk, hbc]), ← harg]
        show parseNumber (decChars m e ++ rest) = some (Json.dec m e, rest)
        exact parseNumber_dec m e rest hr
  | .str s, lvl, fuel, rest, hf, _ => by
    cases fuel with
    | zero => exact absurd hf (Nat.not_lt_zero _)
    | succ f =>
      have harg : printValue lvl (.str s) ++ rest
          = '"' :: (escapeString s ++ ('"' :: rest)) := by
        simp [printValue]
      rw [harg, parseValue, skipWs_not_ws (by decide)]
      simp [parseStringBody_escapeString s [] rest]
  | .arr [], lvl, fuel, rest, hf, _ => by
    cases fuel with
    | zero => exact absurd hf (Nat.not_lt_zero _)
    | succ f =>
      have harg : printValue lvl (.arr []) ++ rest = '[' :: (']' :: rest) := by
        simp [printValue]
      rw [harg, parseValue_arr_branch, skipWs_not_ws (by decide)]
      simp
  | .arr (x :: xs), lvl, fuel, rest, hf, _ => by
    cases fuel with
    | zero => exact absurd hf (Nat.not_lt_zero _)
    | succ f =>
      have harg : printValue lvl (.arr (x :: xs)) ++ rest
          = '[' :: ('\n' :: (jIndent (lvl + 1)
              ++ (printItems (lvl + 1) (x :: xs)
                ++ ('\n' :: (jIndent lvl ++ (']' :: rest)))))) := by
        simp [printValue]
      have hfe : (printItems (lvl + 1) (x :: xs)).length + 1 < f := by
        have hle : (printValue lvl (.arr (x :: xs))).length
            = (printItems (lvl + 1) (x :: xs)).length + (jIndent (lvl + 1)).length
              + (jIndent lvl).length + 4 := by
          simp [printValue, jIndent]
          ring
        omega
      have hkey := rt_items x xs (lvl + 1) f lvl rest hfe
      rw [harg, parseValue_arr_branch,
          skipWs_newline_indent (lvl + 1)
            (printItems (lvl + 1) (x :: xs) ++ ('\n' :: (jIndent lvl ++ (']' :: rest))))]
      obtain ⟨c, t, hpi, hws, hcbr, _⟩ := printItems_head (lvl + 1) x xs
      rw [hpi, List.cons_append, skipWs_not_ws hws, ← List.cons_append, ← hpi]
      split
      · rename_i r2 heq
        rw [hpi] at heq
        injection heq with h1 _
        exact absurd h1 hcbr
      · rw [hkey]
  | .obj [], lvl, fuel, rest, hf, _ => by
    cases fuel with
    | zero => exact absurd hf (Nat.not_lt_zero _)
    | succ f =>
      have harg : printValue lvl (.obj []) ++ rest = '{' :: ('}' :: rest) := by
        simp [printValue]
      rw [harg, parseValue_obj_branch, skipWs_not_ws (by decide)]
      simp
  | .obj (kv :: ms), lvl, fuel, rest, hf, _ => by
    cases fuel with
    | zero => exact absurd hf (Nat.not_lt_zero _)
    | succ f =>
      have harg : printValue lvl (.obj (kv :: ms)) ++ rest
          = '{' :: ('\n' :: (jIndent (lvl + 1)
              ++ (printMembers (lvl + 1) (kv :: ms)
                ++ ('\n' :: (jIndent lvl ++ ('}' :: rest)))))) := by
        simp [printValue]
      have hfe : (printMembers (lvl + 1) (kv :: ms)).length + 1 < f := by
        have hle : (printValue lvl (.obj (kv :: ms))).length
            = (printMembers (lvl + 1) (kv :: ms)).length + (jIndent (lvl + 1)).length
              + (jIndent lvl).length + 4 := by
          simp [printValue, jIndent]
          ring
        omega
      have hkey := rt_members kv ms (lvl + 1) f lvl rest hfe
      rw [harg, parseValue_obj_branch,
          skipWs_newline_indent (lvl + 1)
            (printMembers (lvl + 1) (kv :: ms) ++ ('\n' :: (jIndent lvl ++ ('}' :: rest))))]
      obtain ⟨t, hpm⟩ := printMembers_head (lvl + 1) kv ms
      rw [hpm, List.cons_append, skipWs_not_ws (by decide), ← List.cons_append, ← hpm]
      split
      · rename_i r2 heq
        rw [hpm] at heq
        injection heq with h1 _
        exact absurd h1 (by decide)
      · rw [hkey]
termination_by v => sizeOf v

/-- Parsing the printed element list of a non-empty array consumes the
elements and stops at the closing bracket on its own indented line. -/
theorem rt_items : ∀ (x : Json) (xs : List Json) (lvl fuel lvl2 : Nat) (rest : List Char),
    (printItems lvl (x :: xs)).length + 1 < fuel →
    parseItems fuel (printItems lvl (x :: xs) ++ ('\n' :: (jIndent lvl2 ++ (']' :: rest))))
      = some (x :: xs, rest)
  | x, [], lvl, fuel, lvl2, rest, hf => by
    cases fuel with
    | zero => exact absurd hf (Nat.not_lt_zero _)
    | succ f =>
      have hfx : (printValue lvl x).length < f := by
        simp only [printItems] at hf
        omega
      have hval := rt_val x lvl f ('\n' :: (jIndent lvl2 ++ (']' :: rest))) hfx rfl
      rw [parseItems]
      show (match parseValue f (printItems lvl [x]
          ++ ('\n' :: (jIndent lvl2 ++ (']' :: rest)))) with
        | none => none
        | some vr =>
          match skipWs vr.2 with
          | ',' :: r2 =>
            match parseItems f r2 with
            | some er => some (vr.1 :: er.1, er.2)
            | none => none
          | ']' :: r2 => some ([vr.1], r2)
          | _ => none) = some ([x], rest)
      rw [show printItems lvl [x] = printValue lvl x from rfl, hval]
      simp only []
      rw [skipWs_newline_indent lvl2 (']' :: rest), skipWs_not_ws (by decide)]
      simp
  | x, y :: ys, lvl, fuel, lvl2, rest, hf => by
    cases fuel with
    | zero => exact absurd hf (Nat.not_lt_zero _)
    | succ f =>
      have hlen : (printItems lvl (x :: y :: ys)).length
          = (printValue lvl x).length + (jIndent lvl).length
            + (printItems lvl (y :: ys)).length + 2 := by
        simp [printItems]
        ring
      have hfx : (printValue lvl x).length < f := by omega
      have hfr : (printItems lvl (y :: ys)).length + 1 < f := by omega
      have hval := rt_val x lvl f
        (',' :: ('\n' :: (jIndent lvl
          ++ (printItems lvl (y :: ys) ++ ('\n' :: (jIndent lvl2 ++ (']' :: rest)))))))
        hfx rfl
      have hkey := rt_items y ys lvl f lvl2 rest hfr
      have harg : printItems lvl (x :: y :: ys) ++ ('\n' :: (jIndent lvl2 ++ (']' :: rest)))
          = printValue lvl x ++ (',' :: ('\n' :: (jIndent lvl
              ++ (printItems lvl (y :: ys) ++ ('\n' :: (jIndent lvl2 ++ (']' :: rest))))))) := by
        simp [printItems]
      rw [harg, parseItems, hval]
      simp only []
      rw [skipWs_not_ws (by decide)]
      simp only []
      have hws2 : parseItems f ('\n' :: (jIndent lvl
          ++ (printItems lvl (y :: ys) ++ ('\n' :: (jIndent lvl2 ++ (']' :: rest))))))
          = parseItems f (printItems lvl (y :: ys)
              ++ ('\n' :: (jIndent lvl2 ++ (']' :: rest)))) := by
        show parseItems f (('\n' :: jIndent lvl)
            ++ (printItems lvl (y :: ys) ++ ('\n' :: (jIndent lvl2 ++ (']' :: rest)))))
            = _
        rw [parseItems_ws f ('\n' :: jIndent lvl) _ (by
          intro c hc
          rcases List.mem_cons.mp hc with rfl | hc2
          · decide
          · exact jIndent_ws lvl c hc2)]
      rw [hws2, hkey]
termination_by x xs => sizeOf x + sizeOf xs

/-- Parsing the printed member list of a non-empty object consumes the
members and stops at the closing brace on its own indented line. -/
theorem rt_members : ∀ (kv : List Char × Json) (ms : List (List Char × Json))
    (lvl fuel lvl2 : Nat) (rest : List Char),
    (printMembers lvl (kv :: ms)).length + 1 < fuel →
    parseMembers fuel (printMembers lvl (kv :: ms) ++ ('\n' :: (jIndent lvl2 ++ ('}' :: rest))))
      = some (kv :: ms, rest)
  | (k, v), [], lvl, fuel, lvl2, rest, hf => by
    cases fuel with
    | zero => exact absurd hf (Nat.not_lt_zero _)
    | succ f =>
      have hlen : (printMembers lvl [(k, v)]).length
          = (escapeString k).length + (printValue lvl v).length + 4 := by
        simp [printMembers]
        ring
      have hfv : (printValue lvl v).length < f := by omega
      have hval := rt_val v lvl f ('\n' :: (jIndent lvl2 ++ ('}' :: rest))) hfv rfl
      have harg : printMembers lvl [(k, v)] ++ ('\n' :: (jIndent lvl2 ++ ('}' :: rest)))
          = '"' :: (escapeString k ++ ('"' :: (':' :: (' '
              :: (printValue lvl v ++ ('\n' :: (jIndent lvl2 ++ ('}' :: rest)))))))) := by
        simp [printMembers]
      rw [harg, parseMembers, skipWs_not_ws (by decide)]
      simp only []
      rw [parseStringBody_escapeString k []]
      simp only []
      rw [skipWs_not_ws (by decide)]
      simp only []
      rw [show (' ' :: (printValue lvl v ++ ('\n' :: (jIndent lvl2 ++ ('}' :: rest)))))
          = [' '] ++ (printValue lvl v ++ ('\n' :: (jIndent lvl2 ++ ('}' :: rest)))) from rfl,
        parseValue_ws f [' '] _ (by decide), hval]
      simp only []
      rw [skipWs_newline_indent lvl2 ('}' :: rest), skipWs_not_ws (by decide)]
      simp
  | (k, v), m2 :: ms2, lvl, fuel, lvl2, rest, hf => by
    cases fuel with
    | zero => exact absurd hf (Nat.not_lt_zero _)
    | succ f =>
      have hlen : (printMembers lvl ((k, v) :: m2 :: ms2)).length
          = (escapeString k).length + (printValue lvl v).length + (jIndent lvl).length
            + (printMembers lvl (m2 :: ms2)).length + 6 := by
        simp [printMembers]
        ring
      have hfv : (printValue lvl v).length < f := by omega
      have hfr : (printMembers lvl (m2 :: ms2)).length + 1 < f := by omega
      have hval := rt_val v lvl f
        (',' :: ('\n' :: (jIndent lvl ++ (printMembers lvl (m2 :: ms2)
          ++ ('\n' :: (jIndent lvl2 ++ ('}' :: rest))))))) hfv rfl
      have hkey := rt_members m2 ms2 lvl f lvl2 rest hfr
      have harg : printMembers lvl ((k, v) :: m2 :: ms2)
            ++ ('\n' :: (jIndent lvl2 ++ ('}' :: rest)))
          = '"' :: (escapeString k ++ ('"' :: (':' :: (' '
              :: (printValue lvl v ++ (',' :: ('\n' :: (jIndent lvl
                ++ (printMembers lvl (m2 :: ms2)
                  ++ ('\n' :: (jIndent lvl2 ++ ('}' :: rest)))))))))))) := by
        simp [printMembers]
      rw [harg, parseMembers, skipWs_not_ws (by decide)]
      simp only []
      rw [parseStringBody_escapeString k []]
      simp only []
      rw [skipWs_not_ws (by decide)]
      simp only []
      rw [show (' ' :: (printValue lvl v ++ (',' :: ('\n' :: (jIndent lvl
            ++ (printMembers lvl (m2 :: ms2) ++ ('\n' :: (jIndent lvl2 ++ ('}' :: rest)))))))))
          = [' '] ++ (printValue lvl v ++ (',' :: ('\n' :: (jIndent lvl
            ++ (printMembers lvl (m2 :: ms2)
              ++ ('\n' :: (jIndent lvl2 ++ ('}' :: rest)))))))) from rfl,
        parseValue_ws f [' '] _ (by decide), hval]
      simp only []
      rw [skipWs_not_ws (by decide)]
      simp only []
      have hws2 : parseMembers f ('\n' :: (jIndent lvl ++ (printMembers lvl (m2 :: ms2)
            ++ ('\n' :: (jIndent lvl2 ++ ('}' :: rest))))))
          = parseMembers f (printMembers lvl (m2 :: ms2)
              ++ ('\n' :: (jIndent lvl2 ++ ('}' :: rest)))) := by
        show parseMembers f (('\n' :: jIndent lvl)
            ++ (printMembers lvl (m2 :: ms2) ++ ('\n' :: (jIndent lvl2 ++ ('}' :: rest)))))
            = _
        rw [parseMembers_ws f ('\n' :: jIndent lvl) _ (by
          intro c hc
          rcases List.mem_cons.mp hc with rfl | hc2
          · decide
          · exact jIndent_ws lvl c hc2)]
      rw [hws2, hkey]
      simp
termination_by kv ms => sizeOf kv + sizeOf ms
end

/-- The codec round-trip: json.loads inverts json.dumps(indent=2) on every
value of the model. -/
theorem loads_dumps (v : Json) : loads (dumps v) = some v := by
  have hv := rt_val v 0 ((printValue 0 v).length + 1) [] (by omega) rfl
  simp only [List.append_nil] at hv
  show (match parseValue ((printValue 0 v).length + 1) (printValue 0 v) with
    | some vr => if skipWs vr.2 = [] then some vr.1 else none
    | none => none) = some v
  rw [hv]
  simp [skipWs]

/-- C9: a pass-through tool call such as get_workout returns exactly the
dumps of the parsed upstream response, and deserializing that string with
loads yields the identical value — the serialize-then-deserialize round
trip loses or alters no field. -/
theorem claim_C9 (resp : HttpResponse) (v : Json) (h : api_get resp = .ok v) :
    get_workout resp = some (dumps v) ∧ loads (dumps v) = some v := by
  constructor
  · rw [get_workout, h]
  · exact loads_dumps v

set_option maxRecDepth 8000 in
theorem claim_C9_witness :
    api_get ⟨200, "true"⟩ = .ok (Json.bool true)
    ∧ (get_workout ⟨200, "true"⟩ = some (dumps (Json.bool true))
      ∧ loads (dumps (Json.bool true)) = some (Json.bool true)) :=
  ⟨rfl, claim_C9 ⟨200, "true"⟩ (Json.bool true) rfl⟩
